import Mathlib

/-!
QDjango core (`src/db/QDjango.cpp`): model registry, dependency order, schema orchestration
and per-thread connections.

A shallow embedding of the functions of `QDjango.cpp`.  Global variables of the source
(`globalMetaModels`, `globalDatabase`, ...) become explicit arguments and results.
-/

namespace QDjango

/-! ## Byte strings -/

/-- A `QByteArray`: the bytes of the array, without the terminating NUL. -/
abbrev QByteArray := List Nat

/-- The order `operator<` of `QByteArray`, which `QMap` sorts its keys by: bytewise
comparison, a proper prefix being smaller. -/
def QByteArray.lt : QByteArray → QByteArray → Bool
  | [], [] => false
  | [], _ :: _ => true
  | _ :: _, [] => false
  | a :: as, b :: bs => if a < b then true else if b < a then false else QByteArray.lt as bs

/-- The conversion `QByteArray(const char *)`: the bytes up to the first NUL. -/
def QByteArray.fromCStr (s : List Nat) : QByteArray :=
  s.takeWhile (fun c => c != 0)

/-- Lower-casing of one byte as done by the library function `qstricmp` (ASCII letters). -/
def asciiLower (c : Nat) : Nat :=
  if 65 ≤ c ∧ c ≤ 90 then c + 32 else c

/-- The library function `qstricmp(str1, str2)` on two C strings: walks both strings,
returns the difference of the first pair of lower-cased bytes that differ and 0 when the
terminator is reached on both.  The end of a list is the terminating NUL. -/
def qstricmp : List Nat → List Nat → Int
  | [], [] => 0
  | [], b :: _ => 0 - (asciiLower b : Int)
  | a :: _, [] => (asciiLower a : Int)
  | a :: as, b :: bs =>
    if asciiLower a ≠ asciiLower b then (asciiLower a : Int) - (asciiLower b : Int)
    else if asciiLower a = 0 then 0
    else qstricmp as bs

/-! ## Model descriptors and the registry `globalMetaModels` -/

/-- Modelled from the spec: the class `QDjangoMetaModel` is declared in `QDjangoMetaModel.h`,
which is not among the sources.  A descriptor carries the names of the models it holds a
foreign relationship to (`foreignFields()`); `content` stands for everything else it was
built from. -/
structure QDjangoMetaModel where
  content : Nat
  foreignFields : List QByteArray
deriving DecidableEq, Repr

/-- Modelled from the spec: the default-constructed `QDjangoMetaModel()` (the constructor is
defined in `QDjangoMetaModel.cpp`, not among the sources), the empty descriptor without
foreign relationships. -/
def QDjangoMetaModel.empty : QDjangoMetaModel := ⟨0, []⟩

/-- A `QMap<QByteArray, QDjangoMetaModel>`: the entries in iteration order, which for a
`QMap` is ascending key order. -/
abbrev QMap := List (QByteArray × QDjangoMetaModel)

namespace QMap

/-- The keys in iteration order (`constBegin()` to `constEnd()`). -/
def keys (m : QMap) : List QByteArray := m.map Prod.fst

/-- The function `QMap::contains(key)`. -/
def contains : QMap → QByteArray → Bool
  | [], _ => false
  | (k, _) :: rest, key => if k = key then true else contains rest key

/-- The function `QMap::value(key)`: the stored value, a default-constructed one when the key
is absent. -/
def value : QMap → QByteArray → QDjangoMetaModel
  | [], _ => QDjangoMetaModel.empty
  | (k, v) :: rest, key => if k = key then v else value rest key

/-- The function `QMap::insert(key, value)`: replaces the value of an existing key, otherwise
adds the entry at its place in key order. -/
def insert : QMap → QByteArray → QDjangoMetaModel → QMap
  | [], key, v => [(key, v)]
  | (k, w) :: rest, key, v =>
    if k = key then (key, v) :: rest
    else if QByteArray.lt key k then (key, v) :: (k, w) :: rest
    else (k, w) :: insert rest key v

/-- The function `QMap::remove(key)`. -/
def remove : QMap → QByteArray → QMap
  | [], _ => []
  | (k, w) :: rest, key => if k = key then rest else (k, w) :: remove rest key

/-- The non-const `QMap::operator[](key)`: when the key is absent a default-constructed value
is inserted under it first.  Returns the value and the map afterwards. -/
def index (m : QMap) (key : QByteArray) : QDjangoMetaModel × QMap :=
  if contains m key then (value m key, m)
  else (QDjangoMetaModel.empty, insert m key QDjangoMetaModel.empty)

/-- The representation invariant of a `QMap`: keys strictly ascending. -/
def WF (m : QMap) : Prop := List.Pairwise (fun a b => QByteArray.lt a b = true) (keys m)

end QMap

/-! ## Dependency order (`qdjango_topsort`, `qdjango_sorted_metamodels`) -/

/-- The variables the traversal works on: the global `globalMetaModels`, the hash `visited`
(as the list of the names whose entry is `true`; reading an absent entry yields `false`),
and the `QStack` in push order (bottom first).  `order` is a ghost field: the name under which
each element of `stack` was pushed. -/
structure SortState where
  models : QMap
  visited : List QByteArray
  stack : List QDjangoMetaModel
  order : List QByteArray
deriving DecidableEq, Repr

/-- The loop body shared by `qdjango_topsort` (over `model.foreignFields()`) and
`qdjango_sorted_metamodels` (over the keys): `if (!visited[name]) qdjango_topsort(name, ...)`
for each name in turn.  `visit` is the recursive call; `none` propagates a call that did not
return. -/
def visitEach (visit : QByteArray → SortState → Option SortState) :
    List QByteArray → SortState → Option SortState
  | [], s => some s
  | name :: rest, s =>
    if s.visited.contains name then visitEach visit rest s
    else (visit name s).bind (visitEach visit rest)

/-- The function `qdjango_topsort(modelName, visited, stack)`.  `fuel` bounds the recursion
depth; `none` means the bound was reached. -/
def qdjango_topsort : Nat → QByteArray → SortState → Option SortState
  | 0, _, _ => none
  | fuel + 1, modelName, s =>
    let visited := modelName :: s.visited
    let (model, models) := QMap.index s.models modelName
    (visitEach (qdjango_topsort fuel) model.foreignFields
        { s with models := models, visited := visited }).map
      (fun t => { t with stack := t.stack ++ [model], order := t.order ++ [modelName] })

/-- Every name the traversal can meet: the registered names and the foreign-model names of
the registered descriptors. -/
def allNames (reg : QMap) : List QByteArray :=
  QMap.keys reg ++ reg.flatMap (fun e => e.2.foreignFields)

/-- The function `qdjango_sorted_metamodels()`, on the registry `reg`.  The second loop runs
over the keys the registry has when the loop starts: a key that `operator[]` adds during the
loop is marked visited before it is added, so the loop body does nothing for it.  The
recursion depth is bounded by the number of names of `allNames reg`. -/
def qdjango_sorted_metamodels (reg : QMap) : Option SortState :=
  visitEach (qdjango_topsort (allNames reg).length) (QMap.keys reg)
    { models := reg, visited := [], stack := [], order := [] }

/-! ## Schema orchestration (`createTables`, `dropTables`) -/

/-- What a call of `createTables()` or `dropTables()` leaves behind: the returned boolean,
`globalMetaModels` and the database afterwards.  `calls` is a ghost field: the descriptors
on which the per-model operation was invoked, in call order, each with what it returned. -/
structure TablesRun (σ : Type) where
  result : Bool
  models : QMap
  db : σ
  calls : List (QDjangoMetaModel × Bool)

/-- The loop `for (const QDjangoMetaModel &model : stack)` of `createTables()`.  The
operation `createTable` acts on the database state and returns whether it succeeded. -/
def createLoop {σ : Type} (createTable : QDjangoMetaModel → σ → Bool × σ) :
    List QDjangoMetaModel → Bool × σ × List (QDjangoMetaModel × Bool) →
    Bool × σ × List (QDjangoMetaModel × Bool)
  | [], acc => acc
  | model :: rest, (result, db, calls) =>
    let (ok, db1) := createTable model db
    createLoop createTable rest (if !ok then false else result, db1, calls ++ [(model, ok)])

/-- The loop `for (int i = stack.size() - 1; i >= 0; --i)` of `dropTables()`; the first
argument is `i + 1`. -/
def dropLoop {σ : Type} (dropTable : QDjangoMetaModel → σ → Bool × σ)
    (stack : List QDjangoMetaModel) :
    Nat → Bool × σ × List (QDjangoMetaModel × Bool) → Bool × σ × List (QDjangoMetaModel × Bool)
  | 0, acc => acc
  | i + 1, (result, db, calls) =>
    let model := stack.getD i QDjangoMetaModel.empty
    let (ok, db1) := dropTable model db
    dropLoop dropTable stack i (if !ok then false else result, db1, calls ++ [(model, ok)])

/-- The function `QDjango::createTables()`. -/
def createTables {σ : Type} (createTable : QDjangoMetaModel → σ → Bool × σ)
    (reg : QMap) (db : σ) : Option (TablesRun σ) :=
  (qdjango_sorted_metamodels reg).map fun sorted =>
    let out := createLoop createTable sorted.stack (true, db, [])
    { result := out.1, models := sorted.models, db := out.2.1, calls := out.2.2 }

/-- The function `QDjango::dropTables()`. -/
def dropTables {σ : Type} (dropTable : QDjangoMetaModel → σ → Bool × σ)
    (reg : QMap) (db : σ) : Option (TablesRun σ) :=
  (qdjango_sorted_metamodels reg).map fun sorted =>
    let out := dropLoop dropTable sorted.stack sorted.stack.length (true, db, [])
    { result := out.1, models := sorted.models, db := out.2.1, calls := out.2.2 }

/-! ## Lookup and registration -/

/-- The fallback loop of `metaModel`: the first key, in iteration order, that `qstricmp`
finds equal to `name`. -/
def metaModelScan (models : QMap) (name : List Nat) : List QByteArray → QDjangoMetaModel
  | [] => QDjangoMetaModel.empty
  | key :: rest =>
    if qstricmp name key = 0 then QMap.value models key else metaModelScan models name rest

/-- The function `QDjango::metaModel(const char *name)`; `name` holds the bytes of the
C string. -/
def metaModel (models : QMap) (name : List Nat) : QDjangoMetaModel :=
  if QMap.contains models (QByteArray.fromCStr name) then
    QMap.value models (QByteArray.fromCStr name)
  else metaModelScan models name (QMap.keys models)

/-- A `QObject` handed to `registerModel`, as far as the function uses it: the bytes of
`objectName().toUtf8()` and the descriptor `QDjangoMetaModel(object)` builds from it. -/
structure QObject where
  objectName : QByteArray
  metaModel : QDjangoMetaModel
deriving DecidableEq, Repr

/-- A `QMetaObject` handed to `registerModel`: `className()` and the descriptor
`QDjangoMetaModel(meta)` builds from it. -/
structure QMetaObject where
  className : QByteArray
  metaModel : QDjangoMetaModel
deriving DecidableEq, Repr

/-- The function `QDjango::registerModel(const QObject *object)`: the returned descriptor
and `globalMetaModels` afterwards. -/
def registerModel (object : QObject) (models : QMap) : QDjangoMetaModel × QMap :=
  let name := object.objectName
  let models1 :=
    if name.isEmpty = false ∧ ¬ QMap.contains models name = true then
      QMap.insert models name object.metaModel
    else models
  QMap.index models1 name

/-- The function `QDjango::unregisterModel(const QObject *object)`. -/
def unregisterModel (object : QObject) (models : QMap) : QMap :=
  let name := object.objectName
  if name.isEmpty = false ∧ QMap.contains models name = true then QMap.remove models name
  else models

/-- The function `QDjango::registerModel(const QMetaObject *meta)`. -/
def registerModelMeta (meta : QMetaObject) (models : QMap) : QDjangoMetaModel × QMap :=
  let name := meta.className
  let models1 :=
    if ¬ QMap.contains models name = true then QMap.insert models name meta.metaModel
    else models
  QMap.index models1 name

/-- A sequence of `registerModel(object)` calls, first call first, from the registry
`models`. -/
def registerAll (objects : List QObject) (models : QMap) : QMap :=
  objects.foldl (fun m o => (registerModel o m).2) models

/-! ## Connections per thread (`QDjango::database`, `QDjangoDatabase::threadFinished`) -/

/-- A `QString`, as the list of its character codes. -/
abbrev QString := List Nat

/-- The identity of a `QThread` object. -/
abbrev QThread := Nat

/-- The constant `connectionPrefix`, the string `"_qdjango_"`. -/
def connectionPrefix : QString := [95, 113, 100, 106, 97, 110, 103, 111, 95]

/-- The library function `QString::number(n)`: the decimal digits of `n`, most significant
first. -/
def QString.number (n : Nat) : QString :=
  if n = 0 then [48] else (Nat.digits 10 n).reverse.map (fun d => d + 48)

/-- A `QSqlDatabase` handle, as far as this file uses it. -/
structure QSqlDatabase where
  connectionName : QString
  driverName : QString
  valid : Bool
deriving DecidableEq, Repr

/-- The default-constructed handle `QSqlDatabase()`: invalid, with empty names. -/
def QSqlDatabase.invalid : QSqlDatabase := ⟨[], [], false⟩

/-- The handle returned by the library call `QSqlDatabase::cloneDatabase(other, name)`: the
settings of `other` under the connection name `name`.  For an invalid `other` the library
does nothing and returns a default-constructed handle. -/
def QSqlDatabase.cloneDatabase (other : QSqlDatabase) (name : QString) : QSqlDatabase :=
  if other.valid = true then { other with connectionName := name } else QSqlDatabase.invalid

/-- Modelled from the spec: the member `copies` of `QDjangoDatabase` (declared in
`QDjango_p.h`, not among the sources), the mapping from worker-thread identity to cloned
connection handle. -/
abbrev Copies := List (QThread × QSqlDatabase)

namespace Copies

/-- The function `copies.contains(thread)`. -/
def contains : Copies → QThread → Bool
  | [], _ => false
  | (t, _) :: rest, thread => if t = thread then true else contains rest thread

/-- The function `copies.value(thread)`: a default-constructed handle when the thread has no
entry. -/
def value : Copies → QThread → QSqlDatabase
  | [], _ => QSqlDatabase.invalid
  | (t, db) :: rest, thread => if t = thread then db else value rest thread

/-- The function `copies.remove(thread)`. -/
def remove : Copies → QThread → Copies
  | [], _ => []
  | (t, db) :: rest, thread => if t = thread then remove rest thread else (t, db) :: remove rest thread

/-- The function `copies.insert(thread, db)`: the entry of `thread` is replaced or added. -/
def insert (c : Copies) (thread : QThread) (db : QSqlDatabase) : Copies :=
  (thread, db) :: remove c thread

end Copies

/-- Modelled from the spec: the class `QDjangoDatabase` (declared in `QDjango_p.h`, not among
the sources): the thread the object lives in, the reference connection, the clones per thread
and the counter `connectionId`, a monotonically increasing counter. -/
structure QDjangoDatabase where
  thread : QThread
  reference : QSqlDatabase
  copies : Copies
  connectionId : Nat
deriving DecidableEq, Repr

/-- The state the connection manager works on: the global `globalDatabase` and the library's
table of connection names (`cloneDatabase` of a valid handle adds a name, `removeDatabase`
removes it).
`released` is a ghost field: the names `removeDatabase` was called with, latest first. -/
structure Manager where
  globalDatabase : Option QDjangoDatabase
  connections : List QString
  released : List QString
deriving DecidableEq, Repr

/-- The function `QDjango::database()` called from the thread `thread`: the returned handle
and the state afterwards.  The calls `db.open()` and `initDatabase(db)` act on the connection
only, and `QObject::connect` on the signal table only; they leave this state as it is.  The
library registers the clone's name in its table only when the reference is valid; the counter
advances and the returned handle is stored in either case. -/
def database (thread : QThread) (s : Manager) : QSqlDatabase × Manager :=
  match s.globalDatabase with
  | none => (QSqlDatabase.invalid, s)
  | some g =>
    if thread = g.thread then (g.reference, s)
    else if Copies.contains g.copies thread then (Copies.value g.copies thread, s)
    else
      let name := connectionPrefix ++ QString.number g.connectionId
      let db := QSqlDatabase.cloneDatabase g.reference name
      (db, { s with
              globalDatabase := some { g with connectionId := g.connectionId + 1,
                                              copies := Copies.insert g.copies thread db },
              connections :=
                if g.reference.valid = true then name :: s.connections else s.connections })

/-- The slot `QDjangoDatabase::threadFinished()` of the object `globalDatabase`; `sender` is
`qobject_cast<QThread*>(sender())`, `none` for a null pointer.  The `disconnect` call acts on
the signal table only. -/
def threadFinished (sender : Option QThread) (s : Manager) : Manager :=
  match sender, s.globalDatabase with
  | none, _ => s
  | some _, none => s
  | some thread, some g =>
    let connectionName := (Copies.value g.copies thread).connectionName
    let g1 := { g with copies := Copies.remove g.copies thread }
    if connectionPrefix.isPrefixOf connectionName then
      { globalDatabase := some g1,
        connections := s.connections.filter (fun n => n ≠ connectionName),
        released := connectionName :: s.released }
    else { s with globalDatabase := some g1 }

/-- One step of the connection manager: a `database()` call from a thread, or the slot
`threadFinished()` run for a thread. -/
inductive ManagerStep : Manager → Manager → Prop
  | database (thread : QThread) (s : Manager) : ManagerStep s (database thread s).2
  | threadFinished (thread : QThread) (s : Manager) :
      ManagerStep s (threadFinished (some thread) s)

/-- The states the manager reaches: from a freshly constructed `QDjangoDatabase` (no clones,
`connectionId(0)`) by `database()` and `threadFinished()` steps. -/
inductive Reachable : Manager → Prop
  | init (thread : QThread) (reference : QSqlDatabase) (connections released : List QString) :
      Reachable { globalDatabase := some ⟨thread, reference, [], 0⟩,
                  connections := connections, released := released }
  | step {s t : Manager} : Reachable s → ManagerStep s t → Reachable t

/-! ## Database family, statement execution and configuration
(`getDatabaseType`, `initDatabase`, `QDjangoQuery::exec`, `QDjango::setDatabase`) -/

/-- A `QLatin1String` or `QStringLiteral` of the source, as a `QString`. -/
def latin1 (s : String) : QString := s.toList.map Char.toNat

/-- The function `QString::contains(pattern)`. -/
def QString.contains : QString → QString → Bool
  | [], pattern => pattern.isEmpty
  | c :: cs, pattern => pattern.isPrefixOf (c :: cs) || QString.contains cs pattern

/-- A value of the enumeration `QDjangoDatabase::DatabaseType`, as its integer. -/
abbrev DatabaseType := Int

/-- Modelled from the spec: the enumerators of `QDjangoDatabase::DatabaseType` (declared in
`QDjango_p.h`, not among the sources).  Their integer values are not given there and are
carried as fields. -/
structure Enumerators where
  UnknownDB : DatabaseType
  MSSqlServer : DatabaseType
  MySqlServer : DatabaseType
  PostgreSQL : DatabaseType
  SQLite : DatabaseType
deriving DecidableEq, Repr

/-- What the server behind a handle answers to the trial statements `getDatabaseType` issues
through a plain `QSqlQuery`: whether `SELECT sqlite_version()` executes, and for
`SELECT @@version` and `SELECT version()` the text of `query.value(0)` when both
`query.exec(...)` and `query.next()` succeed. -/
structure ProbeAnswers where
  sqliteVersion : Bool
  atAtVersion : Option QString
  version : Option QString
deriving DecidableEq, Repr

/-- The function `getDatabaseType(db)`. -/
def getDatabaseType (E : Enumerators) (db : QSqlDatabase) (answers : ProbeAnswers) :
    DatabaseType :=
  let driverName := db.driverName
  if driverName = latin1 ("QMYSQL") ∨ driverName = latin1 ("QMYSQL3") then E.MySqlServer
  else if driverName = latin1 ("QSQLITE") ∨ driverName = latin1 ("QSQLITE2") then E.SQLite
  else if driverName = latin1 ("QPSQL") then E.PostgreSQL
  else if (latin1 ("QODBC")).isPrefixOf driverName then
    if answers.sqliteVersion then E.SQLite
    else
      match answers.atAtVersion with
      | some text =>
        if QString.contains text (latin1 ("Microsoft SQL")) then E.MSSqlServer
        else
          match answers.version with
          | some v =>
            if QString.contains v (latin1 ("PostgreSQL")) then E.PostgreSQL
            else E.MySqlServer
          | none => E.UnknownDB
      | none =>
        match answers.version with
        | some v =>
          if QString.contains v (latin1 ("PostgreSQL")) then E.PostgreSQL
          else E.MySqlServer
        | none => E.UnknownDB
  else E.UnknownDB

/-- One line of diagnostic output: the items streamed into `qDebug()` or into
`qWarning()`. -/
inductive LogLine
  | debug (items : List QString)
  | warning (items : List QString)
deriving DecidableEq, Repr

/-- A `QDjangoQuery` as far as `exec()` reads it: `lastQuery()` and `boundValues()`, each
bound value with the label it is printed under (its index or placeholder name) and its
printable text. -/
structure QDjangoQuery where
  lastQuery : QString
  boundValues : List (QString × QString)
deriving DecidableEq, Repr

/-- The function `QDjangoQuery::exec()`.  `failure` is the outcome of the underlying
`QSqlQuery::exec()`: `none` when it succeeds, the text of `lastError()` when it fails.
Returns the boolean and the diagnostic output afterwards. -/
def QDjangoQuery.exec (globalDebugEnabled : Bool) (q : QDjangoQuery) (failure : Option QString)
    (log : List LogLine) : Bool × List LogLine :=
  let log1 :=
    if globalDebugEnabled then
      (log ++ [LogLine.debug [latin1 ("SQL query"), q.lastQuery]]) ++
        q.boundValues.map (fun b => LogLine.debug [latin1 ("SQL   "), b.1, latin1 ("="), b.2])
    else log
  match failure with
  | some error =>
    (false, if globalDebugEnabled then log1 ++ [LogLine.warning [latin1 ("SQL error"), error]]
            else log1)
  | none => (true, log1)

/-- The function `QDjangoQuery::exec(const QString &query)`, with `failure` as for
`exec()`. -/
def QDjangoQuery.execText (globalDebugEnabled : Bool) (query : QString)
    (failure : Option QString) (log : List LogLine) : Bool × List LogLine :=
  let log1 :=
    if globalDebugEnabled then log ++ [LogLine.debug [latin1 ("SQL query"), query]] else log
  match failure with
  | some error =>
    (false, if globalDebugEnabled then log1 ++ [LogLine.warning [latin1 ("SQL error"), error]]
            else log1)
  | none => (true, log1)

/-- The global variables of `QDjango.cpp` next to `globalMetaModels`, with the diagnostic
output written so far.  `initialized` is a ghost field: the handles on which `initDatabase`
issued its `PRAGMA` statement, latest first. -/
structure Globals where
  manager : Manager
  globalDatabaseType : DatabaseType
  globalDebugEnabled : Bool
  log : List LogLine
  initialized : List QSqlDatabase
deriving DecidableEq, Repr

/-- The function `QDjangoDatabase::databaseType(db)`. -/
def QDjangoDatabase.databaseType (s : Globals) (_db : QSqlDatabase) : DatabaseType :=
  s.globalDatabaseType

/-- The function `initDatabase(db)`; `pragmaFailure` is the outcome of executing
`PRAGMA foreign_keys=on` on `db`, as for `QDjangoQuery.exec`. -/
def initDatabase (E : Enumerators) (db : QSqlDatabase) (pragmaFailure : Option QString)
    (s : Globals) : Globals :=
  let databaseType := QDjangoDatabase.databaseType s db
  if databaseType = E.SQLite then
    let query : QDjangoQuery := ⟨latin1 ("PRAGMA foreign_keys=on"), []⟩
    { s with
      log := (QDjangoQuery.exec s.globalDebugEnabled query pragmaFailure s.log).2,
      initialized := db :: s.initialized }
  else s

/-- The body of `setDatabase` after the shortcut test: the family is determined, an
unsupported driver is reported, the `QDjangoDatabase` object is created when there is none
(`new QDjangoDatabase()`, living in the calling thread), `initDatabase` runs unless `skipInit`
is set, and the handle is stored as reference connection. -/
def setDatabaseConfigure (E : Enumerators) (thread : QThread) (database : QSqlDatabase)
    (skipInit : Bool) (dbType : Int) (answers : ProbeAnswers) (pragmaFailure : Option QString)
    (s : Globals) : Globals :=
  let s1 := { s with globalDatabaseType :=
                if dbType > 0 then dbType else getDatabaseType E database answers }
  let s2 :=
    if database.valid = true ∧ s1.globalDatabaseType = E.UnknownDB then
      { s1 with log := s1.log ++
          [LogLine.warning [latin1 ("Unsupported database driver"), database.driverName]] }
    else s1
  let g : QDjangoDatabase :=
    match s2.manager.globalDatabase with
    | some g => g
    | none => ⟨thread, QSqlDatabase.invalid, [], 0⟩
  let s3 := if skipInit = false then initDatabase E database pragmaFailure s2 else s2
  { s3 with manager := { s3.manager with globalDatabase := some { g with reference := database } } }

/-- The function `QDjango::setDatabase(database, skipInit, dbType)` called from the thread
`thread`.  `answers` and `pragmaFailure` are what the server behind `database` answers to
`getDatabaseType` and to `initDatabase`.  The call `qAddPostRoutine(closeDatabase)` acts at
process exit only. -/
def setDatabase (E : Enumerators) (thread : QThread) (database : QSqlDatabase) (skipInit : Bool)
    (dbType : Int) (answers : ProbeAnswers) (pragmaFailure : Option QString) (s : Globals) :
    Globals :=
  match s.manager.globalDatabase with
  | some g =>
    if skipInit = true ∧ g.reference.driverName = database.driverName then
      { s with manager :=
          { s.manager with globalDatabase := some { g with reference := database } } }
    else setDatabaseConfigure E thread database skipInit dbType answers pragmaFailure s
  | none => setDatabaseConfigure E thread database skipInit dbType answers pragmaFailure s

/-- The function `QDjango::isDebugEnabled()`. -/
def isDebugEnabled (s : Globals) : Bool := s.globalDebugEnabled

/-- The function `QDjango::setDebugEnabled(enabled)`. -/
def setDebugEnabled (enabled : Bool) (s : Globals) : Globals :=
  { s with globalDebugEnabled := enabled }

/-- One `setDatabase` call: the handle, `skipInit`, `dbType`, and what the server behind the
handle answers. -/
structure SetDatabaseCall where
  database : QSqlDatabase
  skipInit : Bool
  dbType : Int
  answers : ProbeAnswers
  pragmaFailure : Option QString
deriving DecidableEq, Repr

/-- A sequence of `setDatabase` calls, first call first, all made from the thread
`thread`. -/
def setDatabaseAll (E : Enumerators) (thread : QThread) (calls : List SetDatabaseCall)
    (s : Globals) : Globals :=
  calls.foldl
    (fun acc c => setDatabase E thread c.database c.skipInit c.dbType c.answers c.pragmaFailure acc)
    s

/-! ## Notions used to state the properties -/

/-- The foreign relationship of the registry: the descriptor `reg` holds for `a` (the empty
one for an unregistered name) has `b` among its foreign-model names. -/
def References (reg : QMap) (a b : QByteArray) : Prop :=
  b ∈ (QMap.value reg a).foreignFields

/-- No model reaches itself along one or more foreign relationships. -/
def Acyclic (reg : QMap) : Prop :=
  ∀ n, ¬ Relation.TransGen (References reg) n n

/-- Every foreign-model name of every registered descriptor is itself registered. -/
def Closed (reg : QMap) : Prop :=
  ∀ e ∈ reg, ∀ b ∈ e.2.foreignFields, b ∈ QMap.keys reg

/-- The number of names of `names` not yet marked visited. -/
def pending (names visited : List QByteArray) : Nat :=
  (names.toFinset \ visited.toFinset).card

/-- What holds of the traversal state between any two steps of the traversal of `reg`. -/
structure TraversalInv (reg : QMap) (s : SortState) : Prop where
  value_eq : ∀ k, QMap.value s.models k = QMap.value reg k
  stack_eq : s.stack = s.order.map (QMap.value reg)
  order_sub : ∀ x ∈ s.order, x ∈ s.visited
  order_nodup : s.order.Nodup
  succ_visited : ∀ x ∈ s.order, ∀ y, References reg x y → y ∈ s.visited
  topo : Acyclic reg → s.order.Pairwise (fun x y => ¬ References reg x y)
  unchanged : (∀ x ∈ s.visited, x ∈ QMap.keys reg) → s.models = reg

/-- How a traversal started from the names `roots` takes the state `s` to `t`: the names
`new`, none of them visited before, have been marked and pushed. -/
def Grows (reg : QMap) (roots : List QByteArray) (s t : SortState) : Prop :=
  ∃ new : List QByteArray,
    t.order = s.order ++ new ∧
    (∀ x, x ∈ t.visited ↔ x ∈ new ∨ x ∈ s.visited) ∧
    (∀ x ∈ new, x ∉ s.visited) ∧
    (∀ x ∈ new, x ∈ allNames reg) ∧
    (∀ x ∈ new, ∃ r ∈ roots, Relation.ReflTransGen (References reg) r x)

/-- The entries of the map belong to pairwise distinct threads.  With a valid reference
connection the clones carry pairwise distinct names, each generated from a counter value
below `connectionId`; with an invalid one every clone is the default-constructed handle. -/
def CopiesFresh (g : QDjangoDatabase) : Prop :=
  g.copies.Pairwise (fun a b => a.1 ≠ b.1 ∧
    (g.reference.valid = true → a.2.connectionName ≠ b.2.connectionName)) ∧
  ∀ e ∈ g.copies,
    (g.reference.valid = true ∧ ∃ k, k < g.connectionId ∧
      e.2.connectionName = connectionPrefix ++ QString.number k) ∨
    (g.reference.valid = false ∧ e.2 = QSqlDatabase.invalid)

/-- No connection name has been released twice, and every released name was generated from a
counter value below `connectionId` and is carried by no clone still in the map. -/
def ReleasedFresh (s : Manager) : Prop :=
  s.released.Nodup ∧
  ∀ g, s.globalDatabase = some g → ∀ n ∈ s.released,
    (∃ k, k < g.connectionId ∧ n = connectionPrefix ++ QString.number k) ∧
    ∀ e ∈ g.copies, e.2.connectionName ≠ n

/-- The invocations a loop over `models` makes from the database state `db`: each model with
what the operation returns on it, every invocation starting from the state the previous one
left. -/
def callTrace {σ : Type} (op : QDjangoMetaModel → σ → Bool × σ) :
    List QDjangoMetaModel → σ → List (QDjangoMetaModel × Bool)
  | [], _ => []
  | model :: rest, db => (model, (op model db).1) :: callTrace op rest (op model db).2

/-- Three registered models `a`, `b`, `c`, and no others, where `a` references `b` and `b`
references `c`. -/
def ChainOfThree (reg : QMap) (a b c : QByteArray) : Prop :=
  (∀ k, k ∈ QMap.keys reg ↔ k = a ∨ k = b ∨ k = c) ∧ a ≠ b ∧ b ≠ c ∧ a ≠ c ∧
  (QMap.value reg a).foreignFields = [b] ∧ (QMap.value reg b).foreignFields = [c] ∧
  (QMap.value reg c).foreignFields = []

/-- Two C strings are equal ignoring the case of ASCII letters. -/
def EqIgnoreCase (a b : List Nat) : Prop :=
  (QByteArray.fromCStr a).map asciiLower = (QByteArray.fromCStr b).map asciiLower

instance (a b : List Nat) : Decidable (EqIgnoreCase a b) := by
  unfold EqIgnoreCase
  infer_instance

/-- The registry entry a first registration of `object` stores. -/
def QObject.entry (object : QObject) : QByteArray × QDjangoMetaModel :=
  (object.objectName, object.metaModel)

/-- Manager steps from one state to another none of which is the slot `threadFinished()` run
for the thread `t`: `database()` calls from any thread and `threadFinished()` for other
senders. -/
inductive StepsKeeping (t : QThread) : Manager → Manager → Prop
  | refl (s : Manager) : StepsKeeping t s s
  | database (u : QThread) {s s1 : Manager} :
      StepsKeeping t s s1 → StepsKeeping t s (database u s1).2
  | threadFinished (sender : Option QThread) {s s1 : Manager} :
      sender ≠ some t → StepsKeeping t s s1 → StepsKeeping t s (threadFinished sender s1)

/-! ## Registries and managers used as examples -/

/-- The registry of three models in which `[1]` references `[2]` and `[2]` references
`[3]`. -/
def chainRegistry : QMap :=
  [([1], ⟨1, [[2]]⟩), ([2], ⟨2, [[3]]⟩), ([3], ⟨3, []⟩)]

/-- A registry whose only model names a foreign model `[2]` that is not registered. -/
def danglingRegistry : QMap :=
  [([1], ⟨1, [[2]]⟩)]

/-- A registry of two models that reference each other. -/
def cyclicRegistry : QMap :=
  [([1], ⟨1, [[2]]⟩), ([2], ⟨2, [[1]]⟩)]

/-- A registry with the names `"foo"` and `"bar"`. -/
def fooBarRegistry : QMap :=
  [([98, 97, 114], ⟨2, []⟩), ([102, 111, 111], ⟨1, [[98, 97, 114]]⟩)]

/-- The objects `"foo"` and `"FOO"`, in this order of registration. -/
def fooObjects : List QObject :=
  [⟨[102, 111, 111], ⟨1, []⟩⟩, ⟨[70, 79, 79], ⟨2, []⟩⟩]

/-- The objects `"b"` and `"a"`, neither with a foreign relationship, in this order of
registration. -/
def baObjects : List QObject :=
  [⟨[98], ⟨1, []⟩⟩, ⟨[97], ⟨2, []⟩⟩]

/-- A manager right after construction, owned by thread `0`, the reference connection being
a valid SQLite handle. -/
def freshManager : Manager :=
  { globalDatabase := some ⟨0, ⟨[100, 98], [81, 83, 81, 76, 73, 84, 69], true⟩, [], 0⟩,
    connections := [[100, 98]], released := [] }

/-- Example values of the enumerators. -/
def exampleEnumerators : Enumerators :=
  { UnknownDB := 0, MSSqlServer := 1, MySqlServer := 2, PostgreSQL := 3, SQLite := 4 }

/-- Answers of a server that knows none of the trial statements. -/
def noAnswers : ProbeAnswers :=
  { sqliteVersion := false, atAtVersion := none, version := none }

/-- The globals after a first configuration with a `QSQLITE` handle: family SQLite,
diagnostics off. -/
def sqliteGlobals : Globals :=
  { manager := freshManager, globalDatabaseType := 4, globalDebugEnabled := false,
    log := [], initialized := [] }

/-- The globals at process start: nothing configured, family `UnknownDB`, diagnostics
off. -/
def startGlobals : Globals :=
  { manager := { globalDatabase := none, connections := [], released := [] },
    globalDatabaseType := 0, globalDebugEnabled := false, log := [], initialized := [] }

/-- A registry whose only model references itself. -/
def selfRegistry : QMap :=
  [([1], ⟨1, [[1]]⟩)]

/-- A manager right after construction, owned by thread `0`, whose reference connection is
the invalid default-constructed handle. -/
def invalidManager : Manager :=
  { globalDatabase := some ⟨0, QSqlDatabase.invalid, [], 0⟩,
    connections := [], released := [] }

/-! ## Facts about `QMap` -/

theorem QMap.contains_iff_mem_keys (m : QMap) (key : QByteArray) :
    QMap.contains m key = true ↔ key ∈ QMap.keys m := by
  induction m with
  | nil => simp [QMap.contains, QMap.keys]
  | cons e rest ih =>
    obtain ⟨k, v⟩ := e
    by_cases h : k = key
    · simp [QMap.contains, QMap.keys, h]
    · have h2 : ¬ key = k := fun h3 => h h3.symm
      simp only [QMap.keys] at ih
      simp [QMap.contains, QMap.keys, h, h2, ih]

theorem QMap.value_of_not_contains (m : QMap) (key : QByteArray)
    (h : QMap.contains m key = false) : QMap.value m key = QDjangoMetaModel.empty := by
  induction m with
  | nil => rfl
  | cons e rest ih =>
    obtain ⟨k, v⟩ := e
    by_cases hk : k = key
    · simp [QMap.contains, hk] at h
    · simp only [QMap.contains, hk, if_false] at h
      simp [QMap.value, hk, ih h]

theorem QMap.value_insert (m : QMap) (key k2 : QByteArray) (v : QDjangoMetaModel) :
    QMap.value (QMap.insert m key v) k2 = if key = k2 then v else QMap.value m k2 := by
  induction m with
  | nil => simp [QMap.insert, QMap.value]
  | cons e rest ih =>
    obtain ⟨k, w⟩ := e
    by_cases h1 : k = key
    · subst h1
      by_cases h3 : k = k2 <;> simp [QMap.insert, QMap.value, h3]
    · by_cases h2 : QByteArray.lt key k = true
      · simp [QMap.insert, QMap.value, h1, h2]
      · simp only [QMap.insert, h1, h2, if_false, QMap.value, ih]
        by_cases h3 : k = k2
        · have h4 : ¬ key = k2 := fun h5 => h1 (h3.trans h5.symm)
          simp [h3, h4]
        · simp [h3]

theorem QMap.index_fst (m : QMap) (key : QByteArray) :
    (QMap.index m key).1 = QMap.value m key := by
  unfold QMap.index
  by_cases h : QMap.contains m key = true
  · simp [h]
  · have h2 : QMap.contains m key = false := by simpa using h
    simp [h2, QMap.value_of_not_contains m key h2]

theorem QMap.value_index_snd (m : QMap) (key k2 : QByteArray) :
    QMap.value (QMap.index m key).2 k2 = QMap.value m k2 := by
  unfold QMap.index
  by_cases h : QMap.contains m key = true
  · simp [h]
  · have h2 : QMap.contains m key = false := by simpa using h
    simp only [h2, Bool.false_eq_true, if_false, QMap.value_insert]
    by_cases h3 : key = k2
    · subst h3
      simp [QMap.value_of_not_contains m key h2]
    · simp [h3]

theorem QMap.index_snd_of_mem (m : QMap) (key : QByteArray) (h : key ∈ QMap.keys m) :
    (QMap.index m key).2 = m := by
  unfold QMap.index
  simp [(QMap.contains_iff_mem_keys m key).mpr h]

theorem QMap.value_mem_or_empty (m : QMap) (key : QByteArray) :
    (key, QMap.value m key) ∈ m ∨
      (key ∉ QMap.keys m ∧ QMap.value m key = QDjangoMetaModel.empty) := by
  induction m with
  | nil => right; simp [QMap.keys, QMap.value]
  | cons e rest ih =>
    obtain ⟨k, v⟩ := e
    by_cases hk : k = key
    · left; simp [QMap.value, hk]
    · rcases ih with h | ⟨h1, h2⟩
      · left; simp [QMap.value, hk, h]
      · right
        have hk2 : ¬ key = k := fun h3 => hk h3.symm
        simp only [QMap.keys] at h1
        simp [QMap.value, QMap.keys, hk, hk2, h1, h2]

theorem references_mem_allNames (reg : QMap) {a b : QByteArray} (h : References reg a b) :
    b ∈ allNames reg := by
  unfold References at h
  rcases QMap.value_mem_or_empty reg a with h1 | ⟨_, h2⟩
  · unfold allNames
    refine List.mem_append_right _ ?_
    exact List.mem_flatMap.mpr ⟨(a, QMap.value reg a), h1, h⟩
  · rw [h2] at h
    simp [QDjangoMetaModel.empty] at h

theorem keys_subset_allNames (reg : QMap) {k : QByteArray} (h : k ∈ QMap.keys reg) :
    k ∈ allNames reg :=
  List.mem_append_left _ h

theorem allNames_subset_keys_of_closed (reg : QMap) (hc : Closed reg) {x : QByteArray}
    (h : x ∈ allNames reg) : x ∈ QMap.keys reg := by
  unfold allNames at h
  rcases List.mem_append.mp h with h1 | h1
  · exact h1
  · obtain ⟨e, he, hx⟩ := List.mem_flatMap.mp h1
    exact hc e he x hx

/-! ## The traversal returns and keeps its invariant -/

theorem pending_mono (names : List QByteArray) {v w : List QByteArray}
    (h : ∀ x ∈ v, x ∈ w) : pending names w ≤ pending names v := by
  unfold pending
  apply Finset.card_le_card
  intro x hx
  simp only [Finset.mem_sdiff, List.mem_toFinset] at hx ⊢
  exact ⟨hx.1, fun hv => hx.2 (h x hv)⟩

theorem pending_cons_lt (names : List QByteArray) {v : List QByteArray} {n : QByteArray}
    (hn : n ∈ names) (hv : n ∉ v) : pending names (n :: v) < pending names v := by
  unfold pending
  apply Finset.card_lt_card
  refine ⟨?_, ?_⟩
  · intro x hx
    simp only [Finset.mem_sdiff, List.mem_toFinset, List.mem_cons, not_or] at hx ⊢
    exact ⟨hx.1, hx.2.2⟩
  · intro hsub
    have hmem : n ∈ names.toFinset \ v.toFinset := by
      simp only [Finset.mem_sdiff, List.mem_toFinset]
      exact ⟨hn, hv⟩
    have := hsub hmem
    simp at this

theorem visitEach_cons_visited (visit : QByteArray → SortState → Option SortState)
    (name : QByteArray) (rest : List QByteArray) (s : SortState) (h : name ∈ s.visited) :
    visitEach visit (name :: rest) s = visitEach visit rest s := by
  simp [visitEach, h]

theorem visitEach_cons_unvisited (visit : QByteArray → SortState → Option SortState)
    (name : QByteArray) (rest : List QByteArray) (s : SortState) (h : name ∉ s.visited) :
    visitEach visit (name :: rest) s = (visit name s).bind (visitEach visit rest) := by
  simp [visitEach, h]

theorem qdjango_topsort_succ (fuel : Nat) (n : QByteArray) (s : SortState) :
    qdjango_topsort (fuel + 1) n s =
      (visitEach (qdjango_topsort fuel) (QMap.index s.models n).1.foreignFields
          { s with models := (QMap.index s.models n).2, visited := n :: s.visited }).map
        (fun t => { t with stack := t.stack ++ [(QMap.index s.models n).1],
                           order := t.order ++ [n] }) := by
  rfl

theorem TraversalInv.init (reg : QMap) :
    TraversalInv reg { models := reg, visited := [], stack := [], order := [] } where
  value_eq := fun _ => rfl
  stack_eq := rfl
  order_sub := fun x hx => by simp at hx
  order_nodup := List.nodup_nil
  succ_visited := fun x hx => by simp at hx
  topo := fun _ => List.Pairwise.nil
  unchanged := fun _ => rfl

theorem TraversalInv.mark {reg : QMap} {s : SortState} (h : TraversalInv reg s)
    (n : QByteArray) :
    TraversalInv reg
      { s with models := (QMap.index s.models n).2, visited := n :: s.visited } where
  value_eq := fun k => by
    show QMap.value (QMap.index s.models n).2 k = _
    rw [QMap.value_index_snd, h.value_eq]
  stack_eq := h.stack_eq
  order_sub := fun x hx => List.mem_cons_of_mem _ (h.order_sub x hx)
  order_nodup := h.order_nodup
  succ_visited := fun x hx y hy => List.mem_cons_of_mem _ (h.succ_visited x hx y hy)
  topo := h.topo
  unchanged := fun hv => by
    show (QMap.index s.models n).2 = reg
    have h1 : s.models = reg := h.unchanged (fun x hx => hv x (List.mem_cons_of_mem _ hx))
    rw [h1]
    exact QMap.index_snd_of_mem reg n (hv n (List.mem_cons_self _ _))

theorem Grows.visited_mono {reg : QMap} {roots : List QByteArray} {s t : SortState}
    (h : Grows reg roots s t) : ∀ x ∈ s.visited, x ∈ t.visited := by
  obtain ⟨new, _, hv, _⟩ := h
  exact fun x hx => (hv x).mpr (Or.inr hx)

theorem visitEach_spec (reg : QMap) (fuel : Nat)
    (ih : ∀ n s, TraversalInv reg s → n ∉ s.visited → n ∈ allNames reg →
      pending (allNames reg) s.visited ≤ fuel →
      ∃ t, qdjango_topsort fuel n s = some t ∧ TraversalInv reg t ∧ Grows reg [n] s t ∧
        n ∈ t.visited) :
    ∀ names s, TraversalInv reg s → (∀ f ∈ names, f ∈ allNames reg) →
      pending (allNames reg) s.visited ≤ fuel →
      ∃ t, visitEach (qdjango_topsort fuel) names s = some t ∧ TraversalInv reg t ∧
        Grows reg names s t ∧ ∀ f ∈ names, f ∈ t.visited := by
  intro names
  induction names with
  | nil =>
    intro s hs _ _
    refine ⟨s, rfl, hs, ⟨[], by simp, by simp, by simp, by simp, by simp⟩, by simp⟩
  | cons f rest ihr =>
    intro s hs hnames hfuel
    have hrest : ∀ g ∈ rest, g ∈ allNames reg := fun g hg => hnames g (List.mem_cons_of_mem _ hg)
    by_cases hf : f ∈ s.visited
    · obtain ⟨t, ht, hinv, hgr, hvis⟩ := ihr s hs hrest hfuel
      have hmono := hgr.visited_mono
      refine ⟨t, by rw [visitEach_cons_visited _ _ _ _ hf]; exact ht, hinv, ?_, ?_⟩
      · obtain ⟨new, h1, h2, h3, h4, h5⟩ := hgr
        refine ⟨new, h1, h2, h3, h4, fun x hx => ?_⟩
        obtain ⟨r, hr, hrx⟩ := h5 x hx
        exact ⟨r, List.mem_cons_of_mem _ hr, hrx⟩
      · intro g hg
        rcases List.mem_cons.mp hg with rfl | hg
        · exact hmono g hf
        · exact hvis g hg
    · obtain ⟨t1, ht1, hinv1, hg1, hf1⟩ := ih f s hs hf (hnames f (List.mem_cons_self _ _)) hfuel
      have hfuel1 : pending (allNames reg) t1.visited ≤ fuel :=
        le_trans (pending_mono _ hg1.visited_mono) hfuel
      obtain ⟨t2, ht2, hinv2, hg2, hvis2⟩ := ihr t1 hinv1 hrest hfuel1
      have hmono2 := hg2.visited_mono
      refine ⟨t2, ?_, hinv2, ?_, ?_⟩
      · rw [visitEach_cons_unvisited _ _ _ _ hf, ht1]
        exact ht2
      · obtain ⟨new1, a1, a2, a3, a4, a5⟩ := hg1
        obtain ⟨new2, b1, b2, b3, b4, b5⟩ := hg2
        refine ⟨new1 ++ new2, ?_, ?_, ?_, ?_, ?_⟩
        · rw [b1, a1, List.append_assoc]
        · intro x
          rw [b2, a2, List.mem_append]
          tauto
        · intro x hx
          rcases List.mem_append.mp hx with h | h
          · exact a3 x h
          · exact fun hxs => b3 x h ((a2 x).mpr (Or.inr hxs))
        · intro x hx
          rcases List.mem_append.mp hx with h | h
          · exact a4 x h
          · exact b4 x h
        · intro x hx
          rcases List.mem_append.mp hx with h | h
          · obtain ⟨r, hr, hrx⟩ := a5 x h
            rw [List.mem_singleton] at hr
            exact ⟨f, List.mem_cons_self _ _, hr ▸ hrx⟩
          · obtain ⟨r, hr, hrx⟩ := b5 x h
            exact ⟨r, List.mem_cons_of_mem _ hr, hrx⟩
      · intro g hg
        rcases List.mem_cons.mp hg with rfl | hg
        · exact hmono2 g hf1
        · exact hvis2 g hg

theorem qdjango_topsort_spec (reg : QMap) :
    ∀ fuel n s, TraversalInv reg s → n ∉ s.visited → n ∈ allNames reg →
      pending (allNames reg) s.visited ≤ fuel →
      ∃ t, qdjango_topsort fuel n s = some t ∧ TraversalInv reg t ∧ Grows reg [n] s t ∧
        n ∈ t.visited := by
  intro fuel
  induction fuel with
  | zero =>
    intro n s _ hn hU hfuel
    have h1 := pending_cons_lt (allNames reg) hU hn
    omega
  | succ fuel ih =>
    intro n s hs hn hU hfuel
    have hmodel : (QMap.index s.models n).1 = QMap.value reg n := by
      rw [QMap.index_fst, hs.value_eq]
    have hmark := hs.mark n
    have hfuel1 : pending (allNames reg) (n :: s.visited) ≤ fuel := by
      have h1 := pending_cons_lt (allNames reg) hU hn
      omega
    have hforeign : ∀ f ∈ (QMap.value reg n).foreignFields, f ∈ allNames reg :=
      fun f hf => references_mem_allNames reg hf
    obtain ⟨t, ht, hinv, hg, hvis⟩ :=
      visitEach_spec reg fuel ih (QMap.value reg n).foreignFields _ hmark hforeign hfuel1
    obtain ⟨new, g1, g2, g3, g4, g5⟩ := hg
    have g1 : t.order = s.order ++ new := g1
    have g2 : ∀ x, x ∈ t.visited ↔ x ∈ new ∨ x ∈ n :: s.visited := g2
    have g3 : ∀ x ∈ new, x ∉ n :: s.visited := g3
    have hnt : n ∈ t.visited := (g2 n).mpr (Or.inr (List.mem_cons_self _ _))
    have hn_order : n ∉ t.order := by
      rw [g1, List.mem_append]
      rintro (h | h)
      · exact hn (hs.order_sub n h)
      · exact g3 n h (List.mem_cons_self _ _)
    refine ⟨{ t with stack := t.stack ++ [QMap.value reg n], order := t.order ++ [n] },
      ?_, ?_, ?_, hnt⟩
    · rw [qdjango_topsort_succ, hmodel, ht]
      rfl
    · constructor
      · exact hinv.value_eq
      · show t.stack ++ [QMap.value reg n] = (t.order ++ [n]).map (QMap.value reg)
        rw [hinv.stack_eq, List.map_append]
        rfl
      · intro x hx
        rcases List.mem_append.mp hx with h | h
        · exact hinv.order_sub x h
        · rw [List.mem_singleton] at h
          exact h ▸ hnt
      · show (t.order ++ [n]).Nodup
        rw [List.nodup_append]
        refine ⟨hinv.order_nodup, List.nodup_singleton n, ?_⟩
        intro x hx hx2
        rw [List.mem_singleton] at hx2
        exact hn_order (hx2 ▸ hx)
      · intro x hx y hy
        rcases List.mem_append.mp hx with h | h
        · exact hinv.succ_visited x h y hy
        · rw [List.mem_singleton] at h
          subst h
          exact hvis y hy
      · intro hac
        show (t.order ++ [n]).Pairwise _
        rw [List.pairwise_append]
        refine ⟨hinv.topo hac, List.pairwise_singleton _ _, ?_⟩
        intro x hx y hy hxy
        rw [List.mem_singleton] at hy
        subst hy
        rw [g1] at hx
        rcases List.mem_append.mp hx with h | h
        · exact hn (hs.succ_visited x h y hxy)
        · obtain ⟨r, hr, hrx⟩ := g5 x h
          have hyr : References reg y r := hr
          exact hac y (Relation.TransGen.tail' (Relation.ReflTransGen.head hyr hrx) hxy)
      · exact hinv.unchanged
    · refine ⟨new ++ [n], ?_, ?_, ?_, ?_, ?_⟩
      · show t.order ++ [n] = s.order ++ (new ++ [n])
        rw [g1, List.append_assoc]
      · intro x
        show x ∈ t.visited ↔ _
        rw [g2, List.mem_append, List.mem_singleton, List.mem_cons]
        tauto
      · intro x hx
        rcases List.mem_append.mp hx with h | h
        · exact fun hxs => g3 x h (List.mem_cons_of_mem _ hxs)
        · rw [List.mem_singleton] at h
          exact h ▸ hn
      · intro x hx
        rcases List.mem_append.mp hx with h | h
        · exact g4 x h
        · rw [List.mem_singleton] at h
          exact h ▸ hU
      · intro x hx
        refine ⟨n, List.mem_singleton.mpr rfl, ?_⟩
        rcases List.mem_append.mp hx with h | h
        · obtain ⟨r, hr, hrx⟩ := g5 x h
          have hyr : References reg n r := hr
          exact Relation.ReflTransGen.head hyr hrx
        · rw [List.mem_singleton] at h
          exact h ▸ Relation.ReflTransGen.refl

theorem qdjango_sorted_metamodels_spec (reg : QMap) :
    ∃ r, qdjango_sorted_metamodels reg = some r ∧ TraversalInv reg r ∧
      (∀ x, x ∈ r.visited ↔ x ∈ r.order) ∧
      (∀ k ∈ QMap.keys reg, k ∈ r.order) ∧
      (∀ x ∈ r.order, x ∈ allNames reg) ∧
      (∀ x ∈ r.order, ∃ k ∈ QMap.keys reg, Relation.ReflTransGen (References reg) k x) := by
  have hfuel : pending (allNames reg) [] ≤ (allNames reg).length := by
    unfold pending
    simpa using List.toFinset_card_le (allNames reg)
  obtain ⟨r, hr, hinv, ⟨new, g1, g2, _, g4, g5⟩, hvis⟩ :=
    visitEach_spec reg (allNames reg).length (qdjango_topsort_spec reg _) (QMap.keys reg)
      { models := reg, visited := [], stack := [], order := [] } (TraversalInv.init reg)
      (fun f hf => keys_subset_allNames reg hf) hfuel
  have g1 : r.order = new := by simpa using g1
  have g2 : ∀ x, x ∈ r.visited ↔ x ∈ new := by simpa using g2
  refine ⟨r, hr, hinv, ?_, ?_, ?_, ?_⟩
  · intro x; rw [g1]; exact g2 x
  · intro k hk; rw [g1]; exact (g2 k).mp (hvis k hk)
  · intro x hx; rw [g1] at hx; exact g4 x hx
  · intro x hx; rw [g1] at hx; exact g5 x hx

theorem order_index_lt {reg : QMap} {r : SortState} (hinv : TraversalInv reg r)
    (hac : Acyclic reg) {a b : QByteArray} (ha : a ∈ r.order) (hb : b ∈ r.order)
    (hab : References reg a b) :
    ∃ i j : Nat, i < j ∧ r.order[i]? = some b ∧ r.order[j]? = some a := by
  obtain ⟨j, hj⟩ := List.mem_iff_getElem?.mp ha
  obtain ⟨i, hi⟩ := List.mem_iff_getElem?.mp hb
  refine ⟨i, j, ?_, hi, hj⟩
  obtain ⟨hjl, hja⟩ := List.getElem?_eq_some_iff.mp hj
  obtain ⟨hil, hib⟩ := List.getElem?_eq_some_iff.mp hi
  rcases Nat.lt_trichotomy i j with h | h | h
  · exact h
  · exfalso
    subst h
    have hba : b = a := hib.symm.trans hja
    subst hba
    exact hac b (Relation.TransGen.single hab)
  · exfalso
    have := List.pairwise_iff_getElem.mp (hinv.topo hac) j i hjl hil h
    rw [hja, hib] at this
    exact this hab

theorem acyclic_of_rank (reg : QMap) (rank : QByteArray → Nat)
    (h : ∀ a b, References reg a b → rank b < rank a) : Acyclic reg := by
  have key : ∀ a b, Relation.TransGen (References reg) a b → rank b < rank a := by
    intro a b hab
    induction hab with
    | single h1 => exact h _ _ h1
    | tail _ h2 ih => exact lt_trans (h _ _ h2) ih
  intro n hn
  exact lt_irrefl _ (key n n hn)

theorem QByteArray.lt_irrefl (a : QByteArray) : QByteArray.lt a a = false := by
  induction a with
  | nil => rfl
  | cons x xs ih => simp [QByteArray.lt, ih]

theorem QMap.WF.nodup_keys {m : QMap} (h : QMap.WF m) : (QMap.keys m).Nodup := by
  unfold QMap.WF at h
  refine List.Pairwise.imp ?_ h
  intro a b hab heq
  subst heq
  rw [QByteArray.lt_irrefl] at hab
  exact Bool.false_ne_true hab

theorem QMap.map_value_keys (m : QMap) (h : (QMap.keys m).Nodup) :
    (QMap.keys m).map (QMap.value m) = m.map Prod.snd := by
  induction m with
  | nil => rfl
  | cons e rest ih =>
    obtain ⟨k, v⟩ := e
    have hk : k ∉ QMap.keys rest ∧ (QMap.keys rest).Nodup := by
      simpa [QMap.keys] using h
    have h1 : (QMap.keys rest).map (QMap.value ((k, v) :: rest)) =
        (QMap.keys rest).map (QMap.value rest) := by
      apply List.map_congr_left
      intro x hx
      have hne : ¬ k = x := fun hkx => hk.1 (hkx ▸ hx)
      simp [QMap.value, hne]
    show QMap.value ((k, v) :: rest) k :: (QMap.keys rest).map (QMap.value ((k, v) :: rest)) =
      v :: rest.map Prod.snd
    rw [h1, ih hk.2]
    simp [QMap.value]

/-! ## Dependency order: C1, C2 -/

/-- C1: on a registry in which every foreign-model name is registered and the foreign
relationships form no cycle, `qdjango_sorted_metamodels` returns, and for registered `a`, `b`
with `b` among the foreign-model names of `a` the descriptor of `b` stands at a strictly
smaller index of the returned stack than the descriptor of `a`. -/
theorem sorted_metamodels_foreign_first (reg : QMap) (hclosed : Closed reg)
    (hacyclic : Acyclic reg) :
    ∃ r, qdjango_sorted_metamodels reg = some r ∧
      r.stack = r.order.map (QMap.value reg) ∧ r.order.Nodup ∧
      (∀ x, x ∈ r.order ↔ x ∈ QMap.keys reg) ∧
      ∀ a b, a ∈ QMap.keys reg → b ∈ QMap.keys reg →
        b ∈ (QMap.value reg a).foreignFields →
        ∃ i j : Nat, i < j ∧ r.order[i]? = some b ∧ r.order[j]? = some a ∧
          r.stack[i]? = some (QMap.value reg b) ∧ r.stack[j]? = some (QMap.value reg a) := by
  obtain ⟨r, hr, hinv, _, hkeys, hall, _⟩ := qdjango_sorted_metamodels_spec reg
  refine ⟨r, hr, hinv.stack_eq, hinv.order_nodup,
    fun x => ⟨fun hx => allNames_subset_keys_of_closed reg hclosed (hall x hx), hkeys x⟩, ?_⟩
  intro a b ha hb hab
  obtain ⟨i, j, hij, hi, hj⟩ := order_index_lt hinv hacyclic (hkeys a ha) (hkeys b hb) hab
  refine ⟨i, j, hij, hi, hj, ?_, ?_⟩
  · rw [hinv.stack_eq, List.getElem?_map, hi]; rfl
  · rw [hinv.stack_eq, List.getElem?_map, hj]; rfl

theorem chainRegistry_closed : Closed chainRegistry := by
  intro e he b hb
  simp only [chainRegistry, List.mem_cons, List.mem_singleton, List.not_mem_nil, or_false] at he
  rcases he with rfl | rfl | rfl <;> simp [chainRegistry, QMap.keys] at hb ⊢ <;> simp [hb]

theorem chainRegistry_acyclic : Acyclic chainRegistry := by
  refine acyclic_of_rank _ (fun n => if n = [1] then 2 else if n = [2] then 1 else 0) ?_
  intro a b hab
  unfold References chainRegistry at hab
  by_cases h1 : a = [1]
  · subst h1
    simp [QMap.value] at hab
    subst hab
    simp
  · by_cases h2 : a = [2]
    · subst h2
      simp [QMap.value] at hab
      subst hab
      simp
    · have h1b : ¬ [1] = a := fun h => h1 h.symm
      have h2b : ¬ [2] = a := fun h => h2 h.symm
      by_cases h3 : [3] = a <;>
        simp [QMap.value, h1b, h2b, h3, QDjangoMetaModel.empty] at hab

theorem sorted_metamodels_foreign_first_witness :
    Closed chainRegistry ∧ Acyclic chainRegistry ∧
    ∃ r, qdjango_sorted_metamodels chainRegistry = some r ∧
      r.stack = r.order.map (QMap.value chainRegistry) ∧ r.order.Nodup ∧
      (∀ x, x ∈ r.order ↔ x ∈ QMap.keys chainRegistry) ∧
      ∀ a b, a ∈ QMap.keys chainRegistry → b ∈ QMap.keys chainRegistry →
        b ∈ (QMap.value chainRegistry a).foreignFields →
        ∃ i j : Nat, i < j ∧ r.order[i]? = some b ∧ r.order[j]? = some a ∧
          r.stack[i]? = some (QMap.value chainRegistry b) ∧
          r.stack[j]? = some (QMap.value chainRegistry a) :=
  ⟨chainRegistry_closed, chainRegistry_acyclic,
    sorted_metamodels_foreign_first chainRegistry chainRegistry_closed chainRegistry_acyclic⟩

/-- C2, as stated, fails: on a registry whose model names an unregistered foreign model the
returned stack holds a default-constructed descriptor next to the registered one, so it is
not a rearrangement of the registered descriptors. -/
theorem sorted_metamodels_dangling_counterexample :
    (qdjango_sorted_metamodels danglingRegistry).map (fun r => r.stack) =
        some [QDjangoMetaModel.empty, ⟨1, [[2]]⟩] ∧
      ¬ List.Perm [QDjangoMetaModel.empty, ⟨1, [[2]]⟩] (danglingRegistry.map Prod.snd) ∧
      (qdjango_sorted_metamodels danglingRegistry).map (fun r => r.models) =
        some [([1], ⟨1, [[2]]⟩), ([2], QDjangoMetaModel.empty)] := by
  refine ⟨by decide, ?_, by decide⟩
  intro h
  have := h.length_eq
  simp [danglingRegistry] at this

/-- C2, amended: on every registry in which every foreign-model name is registered, cyclic
relationships included, `qdjango_sorted_metamodels` returns a stack that holds the descriptor
of each registered name exactly once and nothing else, and leaves the registry as it was. -/
theorem sorted_metamodels_perm_of_closed (reg : QMap) (hwf : QMap.WF reg)
    (hclosed : Closed reg) :
    ∃ r, qdjango_sorted_metamodels reg = some r ∧
      List.Perm r.order (QMap.keys reg) ∧
      r.stack = r.order.map (QMap.value reg) ∧
      List.Perm r.stack (reg.map Prod.snd) ∧
      r.models = reg := by
  obtain ⟨r, hr, hinv, hvis, hkeys, hall, _⟩ := qdjango_sorted_metamodels_spec reg
  have hmem : ∀ x, x ∈ r.order ↔ x ∈ QMap.keys reg :=
    fun x => ⟨fun hx => allNames_subset_keys_of_closed reg hclosed (hall x hx), hkeys x⟩
  have hperm : List.Perm r.order (QMap.keys reg) :=
    (List.perm_ext_iff_of_nodup hinv.order_nodup hwf.nodup_keys).mpr hmem
  refine ⟨r, hr, hperm, hinv.stack_eq, ?_, ?_⟩
  · rw [hinv.stack_eq, ← QMap.map_value_keys reg hwf.nodup_keys]
    exact hperm.map _
  · exact hinv.unchanged (fun x hx => (hmem x).mp ((hvis x).mp hx))

theorem cyclicRegistry_wf : QMap.WF cyclicRegistry := by
  simp [QMap.WF, QMap.keys, cyclicRegistry, QByteArray.lt]

theorem cyclicRegistry_closed : Closed cyclicRegistry := by
  intro e he b hb
  simp only [cyclicRegistry, List.mem_cons, List.mem_singleton, List.not_mem_nil, or_false] at he
  rcases he with rfl | rfl <;> simp [cyclicRegistry, QMap.keys] at hb ⊢ <;> simp [hb]

theorem sorted_metamodels_perm_of_closed_witness :
    QMap.WF cyclicRegistry ∧ Closed cyclicRegistry ∧
    ∃ r, qdjango_sorted_metamodels cyclicRegistry = some r ∧
      List.Perm r.order (QMap.keys cyclicRegistry) ∧
      r.stack = r.order.map (QMap.value cyclicRegistry) ∧
      List.Perm r.stack (cyclicRegistry.map Prod.snd) ∧
      r.models = cyclicRegistry :=
  ⟨cyclicRegistry_wf, cyclicRegistry_closed,
    sorted_metamodels_perm_of_closed cyclicRegistry cyclicRegistry_wf cyclicRegistry_closed⟩

/-! ## Schema orchestration: C3, C4 -/

theorem createLoop_eq {σ : Type} (op : QDjangoMetaModel → σ → Bool × σ) :
    ∀ (models : List QDjangoMetaModel) (result : Bool) (db : σ)
      (calls : List (QDjangoMetaModel × Bool)),
      (createLoop op models (result, db, calls)).1 =
          (result && (callTrace op models db).all (fun e => e.2)) ∧
        (createLoop op models (result, db, calls)).2.2 = calls ++ callTrace op models db := by
  intro models
  induction models with
  | nil => intro result db calls; simp [createLoop, callTrace]
  | cons model rest ih =>
    intro result db calls
    have h := ih (if !(op model db).1 then false else result) (op model db).2
      (calls ++ [(model, (op model db).1)])
    simp only [createLoop, callTrace, List.all_cons]
    refine ⟨?_, ?_⟩
    · rw [h.1]
      cases (op model db).1 <;> simp
    · rw [h.2]
      simp

theorem dropLoop_eq_createLoop {σ : Type} (op : QDjangoMetaModel → σ → Bool × σ)
    (stack : List QDjangoMetaModel) :
    ∀ (i : Nat), i ≤ stack.length → ∀ (acc : Bool × σ × List (QDjangoMetaModel × Bool)),
      dropLoop op stack i acc = createLoop op (stack.take i).reverse acc := by
  intro i
  induction i with
  | zero => intro _ acc; simp [dropLoop, createLoop]
  | succ i ih =>
    intro hi acc
    obtain ⟨result, db, calls⟩ := acc
    have hlt : i < stack.length := hi
    have hget : stack.getD i QDjangoMetaModel.empty = stack[i] := by
      simp [List.getD, List.getElem?_eq_getElem hlt]
    have htake : (stack.take (i + 1)).reverse = stack[i] :: (stack.take i).reverse := by
      rw [List.take_succ, List.getElem?_eq_getElem hlt]
      simp
    rw [htake]
    simp only [dropLoop, createLoop, hget]
    exact ih (Nat.le_of_lt hlt) _

theorem callTrace_map_fst {σ : Type} (op : QDjangoMetaModel → σ → Bool × σ) :
    ∀ (models : List QDjangoMetaModel) (db : σ),
      (callTrace op models db).map Prod.fst = models := by
  intro models
  induction models with
  | nil => intro db; rfl
  | cons model rest ih => intro db; simp [callTrace, ih]

theorem createTables_eq {σ : Type} (op : QDjangoMetaModel → σ → Bool × σ) (reg : QMap)
    (db : σ) {sorted : SortState} (h : qdjango_sorted_metamodels reg = some sorted) :
    ∃ c, createTables op reg db = some c ∧ c.calls = callTrace op sorted.stack db ∧
      c.result = (callTrace op sorted.stack db).all (fun e => e.2) ∧
      c.models = sorted.models := by
  have h1 := createLoop_eq op sorted.stack true db []
  refine ⟨_, by simp only [createTables, h, Option.map_some']; rfl, ?_, ?_, rfl⟩
  · simpa using h1.2
  · simpa using h1.1

theorem dropTables_eq {σ : Type} (op : QDjangoMetaModel → σ → Bool × σ) (reg : QMap)
    (db : σ) {sorted : SortState} (h : qdjango_sorted_metamodels reg = some sorted) :
    ∃ d, dropTables op reg db = some d ∧ d.calls = callTrace op sorted.stack.reverse db ∧
      d.result = (callTrace op sorted.stack.reverse db).all (fun e => e.2) ∧
      d.models = sorted.models := by
  have h0 := dropLoop_eq_createLoop op sorted.stack sorted.stack.length (le_refl _) (true, db, [])
  rw [List.take_length] at h0
  have h1 := createLoop_eq op sorted.stack.reverse true db []
  refine ⟨_, by simp only [dropTables, h, Option.map_some']; rfl, ?_, ?_, rfl⟩
  · show (dropLoop op sorted.stack sorted.stack.length (true, db, [])).2.2 = _
    rw [h0]
    simpa using h1.2
  · show (dropLoop op sorted.stack sorted.stack.length (true, db, [])).1 = _
    rw [h0]
    simpa using h1.1

/-- C3: `createTables()` returns and invokes `createTable` once on every model of the sorted
stack, in stack order and whatever the earlier invocations returned, and its result is true
exactly when every invocation returned true; `dropTables()` does the same with `dropTable`,
over the stack from its top; on the empty registry both return true. -/
theorem createTables_dropTables_attempt_all {σ : Type}
    (createTable dropTable : QDjangoMetaModel → σ → Bool × σ) (reg : QMap) (db : σ) :
    (∃ sorted c d, qdjango_sorted_metamodels reg = some sorted ∧
      createTables createTable reg db = some c ∧ dropTables dropTable reg db = some d ∧
      c.calls = callTrace createTable sorted.stack db ∧
      c.calls.map Prod.fst = sorted.stack ∧
      (c.result = true ↔ ∀ e ∈ c.calls, e.2 = true) ∧
      d.calls = callTrace dropTable sorted.stack.reverse db ∧
      d.calls.map Prod.fst = sorted.stack.reverse ∧
      (d.result = true ↔ ∀ e ∈ d.calls, e.2 = true)) ∧
    (createTables createTable [] db).map (fun c => c.result) = some true ∧
    (dropTables dropTable [] db).map (fun d => d.result) = some true := by
  refine ⟨?_, rfl, rfl⟩
  obtain ⟨sorted, hs, _⟩ := qdjango_sorted_metamodels_spec reg
  obtain ⟨c, hc, hc1, hc2, _⟩ := createTables_eq createTable reg db hs
  obtain ⟨d, hd, hd1, hd2, _⟩ := dropTables_eq dropTable reg db hs
  refine ⟨sorted, c, d, hs, hc, hd, hc1, ?_, ?_, hd1, ?_, ?_⟩
  · rw [hc1, callTrace_map_fst]
  · rw [hc2, hc1, List.all_eq_true]
  · rw [hd1, callTrace_map_fst]
  · rw [hd2, hd1, List.all_eq_true]

theorem chain_order_unique {α : Type} (R : α → α → Prop) (l : List α) (a b c : α)
    (hnd : l.Nodup) (hmem : ∀ x, x ∈ l ↔ x = a ∨ x = b ∨ x = c)
    (hab : a ≠ b) (hbc : b ≠ c) (hac : a ≠ c)
    (hp : l.Pairwise (fun x y => ¬ R x y)) (rab : R a b) (rbc : R b c) :
    l = [c, b, a] := by
  have hnd3 : [a, b, c].Nodup := by simp [hab, hbc, hac]
  have hperm : List.Perm l [a, b, c] :=
    (List.perm_ext_iff_of_nodup hnd hnd3).mpr (fun x => by rw [hmem]; simp)
  have hlen := hperm.length_eq
  match l, hlen with
  | [x, y, z], _ =>
    have hx := (hmem x).mp (by simp)
    have hy := (hmem y).mp (by simp)
    have hz := (hmem z).mp (by simp)
    have ha := (hmem a).mpr (Or.inl rfl)
    have hb := (hmem b).mpr (Or.inr (Or.inl rfl))
    have hc := (hmem c).mpr (Or.inr (Or.inr rfl))
    simp only [List.pairwise_cons, List.mem_cons, List.mem_singleton, List.not_mem_nil,
      or_false, forall_eq_or_imp, forall_eq, List.Pairwise.nil, and_true,
      IsEmpty.forall_iff, implies_true] at hp
    simp only [List.nodup_cons, List.mem_cons, List.mem_singleton, List.not_mem_nil,
      or_false, not_or, List.nodup_nil, and_true, not_false_eq_true] at hnd
    simp only [List.mem_cons, List.mem_singleton, List.not_mem_nil, or_false] at ha hb hc
    obtain ⟨⟨hxy, hxz⟩, hyz⟩ := hp
    obtain ⟨⟨nxy, nxz⟩, nyz⟩ := hnd
    rcases hx with rfl | rfl | rfl
    · exfalso
      rcases hb with h | h | h
      · exact hab h.symm
      · exact hxy (h ▸ rab)
      · exact hxz (h ▸ rab)
    · exfalso
      rcases hc with h | h | h
      · exact hbc h.symm
      · exact hxy (h ▸ rbc)
      · exact hxz (h ▸ rbc)
    · rcases hy with rfl | rfl | rfl
      · exfalso
        rcases hb with h | h | h
        · exact hbc h
        · exact hab h.symm
        · exact hyz (h ▸ rab)
      · rcases hz with rfl | rfl | rfl
        · rfl
        · exact absurd rfl nyz
        · exact absurd rfl nxz
      · exact absurd rfl nxy

theorem ChainOfThree.acyclic {reg : QMap} {a b c : QByteArray} (h : ChainOfThree reg a b c) :
    Acyclic reg := by
  obtain ⟨hk, hab, hbc, hac, fa, fb, fc⟩ := h
  refine acyclic_of_rank reg (fun n => if n = a then 2 else if n = b then 1 else 0) ?_
  intro x y hxy
  unfold References at hxy
  by_cases hxa : x = a
  · subst hxa
    rw [fa, List.mem_singleton] at hxy
    subst hxy
    simp [hab.symm]
  · by_cases hxb : x = b
    · subst hxb
      rw [fb, List.mem_singleton] at hxy
      subst hxy
      have h1 : ¬ y = a := fun h => hac h.symm
      have h2 : ¬ y = x := fun h => hbc h.symm
      simp [h1, h2, hxa]
    · exfalso
      by_cases hxc : x = c
      · subst hxc
        rw [fc] at hxy
        simp at hxy
      · have hnk : x ∉ QMap.keys reg := by
          rw [hk]
          simp [hxa, hxb, hxc]
        rcases QMap.value_mem_or_empty reg x with h1 | ⟨_, h2⟩
        · exact hnk (List.mem_map.mpr ⟨_, h1, rfl⟩)
        · rw [h2] at hxy
          simp [QDjangoMetaModel.empty] at hxy

theorem ChainOfThree.order {reg : QMap} {a b c : QByteArray} (h : ChainOfThree reg a b c) :
    ∃ r, qdjango_sorted_metamodels reg = some r ∧
      r.stack = [QMap.value reg c, QMap.value reg b, QMap.value reg a] := by
  have hac := h.acyclic
  obtain ⟨hk, hab, hbc, hnac, fa, fb, fc⟩ := h
  obtain ⟨r, hr, hinv, _, hkeys, _, hreach⟩ := qdjango_sorted_metamodels_spec reg
  have hstep : ∀ x y, (x = a ∨ x = b ∨ x = c) → References reg x y →
      (y = a ∨ y = b ∨ y = c) := by
    intro x y hx hxy
    unfold References at hxy
    rcases hx with rfl | rfl | rfl
    · rw [fa, List.mem_singleton] at hxy
      exact Or.inr (Or.inl hxy)
    · rw [fb, List.mem_singleton] at hxy
      exact Or.inr (Or.inr hxy)
    · rw [fc] at hxy
      simp at hxy
  have hclos : ∀ k x, Relation.ReflTransGen (References reg) k x →
      (k = a ∨ k = b ∨ k = c) → (x = a ∨ x = b ∨ x = c) := by
    intro k x hkx hk3
    induction hkx with
    | refl => exact hk3
    | tail _ h2 ih => exact hstep _ _ ih h2
  have hmem : ∀ x, x ∈ r.order ↔ x = a ∨ x = b ∨ x = c := by
    intro x
    constructor
    · intro hx
      obtain ⟨k, hkk, hkx⟩ := hreach x hx
      exact hclos k x hkx ((hk k).mp hkk)
    · intro hx
      exact hkeys x ((hk x).mpr hx)
  have horder := chain_order_unique (References reg) r.order a b c hinv.order_nodup hmem
    hab hbc hnac (hinv.topo hac)
    (by unfold References; rw [fa]; exact List.mem_singleton.mpr rfl)
    (by unfold References; rw [fb]; exact List.mem_singleton.mpr rfl)
  refine ⟨r, hr, ?_⟩
  rw [hinv.stack_eq, horder]
  rfl

/-- C4: from one and the same registry state the models `dropTables()` invokes `dropTable`
on are, in call order, the reverse of those `createTables()` invokes `createTable` on; and
for three registered models where `a` references `b` and `b` references `c`, `createTable`
is invoked on `c`, `b`, `a` in this order and `dropTable` on `a`, `b`, `c`. -/
theorem dropTables_reverse_of_createTables {σ : Type}
    (createTable dropTable : QDjangoMetaModel → σ → Bool × σ) (reg : QMap) (db1 db2 : σ) :
    (∃ cr dr, createTables createTable reg db1 = some cr ∧
      dropTables dropTable reg db2 = some dr ∧
      dr.calls.map Prod.fst = (cr.calls.map Prod.fst).reverse) ∧
    (∀ a b c : QByteArray, ChainOfThree reg a b c →
      ∃ cr dr, createTables createTable reg db1 = some cr ∧
        dropTables dropTable reg db2 = some dr ∧
        cr.calls.map Prod.fst = [QMap.value reg c, QMap.value reg b, QMap.value reg a] ∧
        dr.calls.map Prod.fst = [QMap.value reg a, QMap.value reg b, QMap.value reg c]) := by
  obtain ⟨sorted, hs, _⟩ := qdjango_sorted_metamodels_spec reg
  obtain ⟨cr, hc, hc1, _, _⟩ := createTables_eq createTable reg db1 hs
  obtain ⟨dr, hd, hd1, _, _⟩ := dropTables_eq dropTable reg db2 hs
  have hcm : cr.calls.map Prod.fst = sorted.stack := by rw [hc1, callTrace_map_fst]
  have hdm : dr.calls.map Prod.fst = sorted.stack.reverse := by rw [hd1, callTrace_map_fst]
  refine ⟨⟨cr, dr, hc, hd, by rw [hcm, hdm]⟩, ?_⟩
  intro a b c hchain
  obtain ⟨r, hr, hstack⟩ := hchain.order
  have hrs : r = sorted := Option.some.inj (hr.symm.trans hs)
  subst hrs
  refine ⟨cr, dr, hc, hd, ?_, ?_⟩
  · rw [hcm, hstack]
  · rw [hdm, hstack]
    rfl

theorem chainRegistry_chain : ChainOfThree chainRegistry [1] [2] [3] := by
  refine ⟨?_, by decide, by decide, by decide, by decide, by decide, by decide⟩
  intro k
  simp [chainRegistry, QMap.keys]

theorem dropTables_reverse_of_createTables_witness :
    ChainOfThree chainRegistry [1] [2] [3] ∧
    ∃ cr dr, createTables (fun m (log : List Nat) => (true, m.content :: log))
        chainRegistry [] = some cr ∧
      dropTables (fun m (log : List Nat) => (true, m.content :: log))
        chainRegistry [] = some dr ∧
      cr.calls.map Prod.fst =
        [QMap.value chainRegistry [3], QMap.value chainRegistry [2],
          QMap.value chainRegistry [1]] ∧
      dr.calls.map Prod.fst =
        [QMap.value chainRegistry [1], QMap.value chainRegistry [2],
          QMap.value chainRegistry [3]] :=
  ⟨chainRegistry_chain,
    (dropTables_reverse_of_createTables (fun m (log : List Nat) => (true, m.content :: log))
      (fun m (log : List Nat) => (true, m.content :: log)) chainRegistry [] []).2
      [1] [2] [3] chainRegistry_chain⟩

/-! ## Lookup and registration: C5, C6, C7, C8 -/

theorem asciiLower_eq_zero {c : Nat} : asciiLower c = 0 ↔ c = 0 := by
  unfold asciiLower
  split <;> omega

theorem asciiLower_zero : asciiLower 0 = 0 := rfl

theorem fromCStr_cons_zero (xs : List Nat) : QByteArray.fromCStr (0 :: xs) = [] := rfl

theorem fromCStr_cons_ne {x : Nat} (h : x ≠ 0) (xs : List Nat) :
    QByteArray.fromCStr (x :: xs) = x :: QByteArray.fromCStr xs := by
  have h1 : (x != 0) = true := by simpa using h
  simp [QByteArray.fromCStr, List.takeWhile_cons, h1]

theorem fromCStr_of_no_nul : ∀ (name : List Nat), 0 ∉ name → QByteArray.fromCStr name = name := by
  intro name
  induction name with
  | nil => intro _; rfl
  | cons x xs ih =>
    intro h
    have hx : x ≠ 0 := fun h0 => h (h0 ▸ List.mem_cons_self _ _)
    rw [fromCStr_cons_ne hx, ih (fun h0 => h (List.mem_cons_of_mem _ h0))]

theorem qstricmp_cons_cons (x y : Nat) (xs ys : List Nat) :
    qstricmp (x :: xs) (y :: ys) =
      if asciiLower x ≠ asciiLower y then (asciiLower x : Int) - (asciiLower y : Int)
      else if asciiLower x = 0 then 0 else qstricmp xs ys := rfl

theorem eqIgnoreCase_nil_cons (y : Nat) (ys : List Nat) :
    EqIgnoreCase [] (y :: ys) ↔ y = 0 := by
  unfold EqIgnoreCase
  by_cases hy : y = 0
  · subst hy
    simp [fromCStr_cons_zero, QByteArray.fromCStr]
  · simp [fromCStr_cons_ne hy, QByteArray.fromCStr, hy]

theorem eqIgnoreCase_cons_nil (x : Nat) (xs : List Nat) :
    EqIgnoreCase (x :: xs) [] ↔ x = 0 := by
  unfold EqIgnoreCase
  by_cases hx : x = 0
  · subst hx
    simp [fromCStr_cons_zero, QByteArray.fromCStr]
  · simp [fromCStr_cons_ne hx, QByteArray.fromCStr, hx]

theorem eqIgnoreCase_cons_cons (x y : Nat) (xs ys : List Nat) :
    EqIgnoreCase (x :: xs) (y :: ys) ↔
      asciiLower x = asciiLower y ∧ (x = 0 ∨ EqIgnoreCase xs ys) := by
  unfold EqIgnoreCase
  have hx := @asciiLower_eq_zero x
  have hy := @asciiLower_eq_zero y
  by_cases hx0 : x = 0
  · subst hx0
    by_cases hy0 : y = 0
    · subst hy0
      simp [fromCStr_cons_zero]
    · have h1 : ¬ asciiLower 0 = asciiLower y := fun h => hy0 (hy.mp h.symm)
      simp [fromCStr_cons_zero, fromCStr_cons_ne hy0, h1]
  · by_cases hy0 : y = 0
    · subst hy0
      have h1 : ¬ asciiLower x = asciiLower 0 := fun h => hx0 (hx.mp h)
      simp [fromCStr_cons_zero, fromCStr_cons_ne hx0, h1]
    · simp [fromCStr_cons_ne hx0, fromCStr_cons_ne hy0, hx0]

theorem qstricmp_eq_zero_iff : ∀ a b : List Nat, qstricmp a b = 0 ↔ EqIgnoreCase a b := by
  intro a
  induction a with
  | nil =>
    intro b
    cases b with
    | nil => simp [qstricmp, EqIgnoreCase]
    | cons y ys =>
      rw [eqIgnoreCase_nil_cons]
      have h := @asciiLower_eq_zero y
      show (0 : Int) - (asciiLower y : Int) = 0 ↔ y = 0
      rw [← h]
      omega
  | cons x xs ih =>
    intro b
    have hx := @asciiLower_eq_zero x
    cases b with
    | nil =>
      rw [eqIgnoreCase_cons_nil]
      show (asciiLower x : Int) = 0 ↔ x = 0
      rw [← hx]
      omega
    | cons y ys =>
      rw [eqIgnoreCase_cons_cons, qstricmp_cons_cons, ← ih ys, ← hx]
      by_cases hne : asciiLower x = asciiLower y
      · by_cases h0 : asciiLower x = 0
        · simp [hne, h0, hne ▸ h0]
        · have h1 : ¬ asciiLower y = 0 := fun h => h0 (hne.trans h)
          simp [hne, h0, h1]
      · have hres : (asciiLower x : Int) - (asciiLower y : Int) ≠ 0 := by omega
        simp [hne, hres]

theorem metaModelScan_spec (reg : QMap) (name : List Nat) :
    ∀ ks : List QByteArray,
      (∃ pre k post, ks = pre ++ k :: post ∧ (∀ k2 ∈ pre, ¬ EqIgnoreCase name k2) ∧
        EqIgnoreCase name k ∧ metaModelScan reg name ks = QMap.value reg k) ∨
      ((∀ k ∈ ks, ¬ EqIgnoreCase name k) ∧
        metaModelScan reg name ks = QDjangoMetaModel.empty) := by
  intro ks
  induction ks with
  | nil => right; exact ⟨by simp, rfl⟩
  | cons key rest ih =>
    by_cases h : qstricmp name key = 0
    · left
      refine ⟨[], key, rest, rfl, by simp, (qstricmp_eq_zero_iff _ _).mp h, ?_⟩
      simp [metaModelScan, h]
    · have hne : ¬ EqIgnoreCase name key := fun h2 => h ((qstricmp_eq_zero_iff _ _).mpr h2)
      have hscan : metaModelScan reg name (key :: rest) = metaModelScan reg name rest := by
        simp [metaModelScan, h]
      rcases ih with ⟨pre, k, post, h1, h2, h3, h4⟩ | ⟨h1, h2⟩
      · left
        refine ⟨key :: pre, k, post, by rw [h1]; rfl, ?_, h3, by rw [hscan, h4]⟩
        intro k2 hk2
        rcases List.mem_cons.mp hk2 with rfl | hk2
        · exact hne
        · exact h2 k2 hk2
      · right
        refine ⟨?_, by rw [hscan, h2]⟩
        intro k hk
        rcases List.mem_cons.mp hk with rfl | hk
        · exact hne
        · exact h1 k hk

theorem registerModel_present (reg : QMap) (object : QObject)
    (h : QMap.contains reg object.objectName = true) :
    registerModel object reg = (QMap.value reg object.objectName, reg) := by
  simp [registerModel, h, QMap.index]

theorem QByteArray.lt_cons_cons (x y : Nat) (xs ys : QByteArray) :
    QByteArray.lt (x :: xs) (y :: ys) =
      if x < y then true else if y < x then false else QByteArray.lt xs ys := rfl

theorem QByteArray.lt_trans : ∀ a b c : QByteArray,
    QByteArray.lt a b = true → QByteArray.lt b c = true → QByteArray.lt a c = true := by
  intro a
  induction a with
  | nil =>
    intro b c hab hbc
    cases c with
    | nil => cases b <;> simp [QByteArray.lt] at hab hbc
    | cons z zs => rfl
  | cons x xs ih =>
    intro b c hab hbc
    cases b with
    | nil => simp [QByteArray.lt] at hab
    | cons y ys =>
      cases c with
      | nil => simp [QByteArray.lt] at hbc
      | cons z zs =>
        rw [QByteArray.lt_cons_cons] at hab hbc ⊢
        by_cases hxy : x < y
        · by_cases hyz : y < z
          · have : x < z := by omega
            simp [this]
          · by_cases hzy : z < y
            · simp [hyz, hzy] at hbc
            · have : x < z := by omega
              simp [this]
        · by_cases hyx : y < x
          · simp [hxy, hyx] at hab
          · simp only [hxy, hyx, if_false] at hab
            have hxeq : x = y := by omega
            subst hxeq
            by_cases hxz : x < z
            · simp [hxz]
            · by_cases hzx : z < x
              · simp [hxz, hzx] at hbc
              · simp only [hxz, hzx, if_false] at hbc ⊢
                exact ih ys zs hab hbc

theorem QByteArray.lt_total : ∀ a b : QByteArray,
    a ≠ b → QByteArray.lt a b = false → QByteArray.lt b a = true := by
  intro a
  induction a with
  | nil =>
    intro b hne h
    cases b with
    | nil => exact absurd rfl hne
    | cons y ys => simp [QByteArray.lt] at h
  | cons x xs ih =>
    intro b hne h
    cases b with
    | nil => rfl
    | cons y ys =>
      rw [QByteArray.lt_cons_cons] at h ⊢
      by_cases hxy : x < y
      · simp [hxy] at h
      · by_cases hyx : y < x
        · simp [hyx]
        · simp only [hxy, hyx, if_false] at h ⊢
          have hxeq : x = y := by omega
          subst hxeq
          exact ih ys (fun h2 => hne (by rw [h2])) h

theorem QByteArray.lt_asymm (a b : QByteArray) (h : QByteArray.lt a b = true) :
    QByteArray.lt b a = false := by
  by_contra hc
  have hc2 : QByteArray.lt b a = true := by simpa using hc
  have := QByteArray.lt_trans a b a h hc2
  rw [QByteArray.lt_irrefl] at this
  exact Bool.false_ne_true this

theorem QMap.mem_keys_insert (m : QMap) (key k2 : QByteArray) (v : QDjangoMetaModel) :
    k2 ∈ QMap.keys (QMap.insert m key v) ↔ k2 = key ∨ k2 ∈ QMap.keys m := by
  induction m with
  | nil => simp [QMap.insert, QMap.keys]
  | cons e rest ih =>
    obtain ⟨k, w⟩ := e
    simp only [QMap.keys] at ih
    by_cases h1 : k = key
    · subst h1
      simp [QMap.insert, QMap.keys]
    · by_cases h2 : QByteArray.lt key k = true
      · simp [QMap.insert, QMap.keys, h1, h2]
      · have h3 : QMap.insert ((k, w) :: rest) key v = (k, w) :: QMap.insert rest key v := by
          simp [QMap.insert, h1, h2]
        rw [h3]
        show k2 ∈ k :: List.map Prod.fst (QMap.insert rest key v) ↔
          k2 = key ∨ k2 ∈ k :: List.map Prod.fst rest
        rw [List.mem_cons, List.mem_cons, ih]
        tauto

theorem QMap.WF_insert (m : QMap) (key : QByteArray) (v : QDjangoMetaModel)
    (h : QMap.WF m) : QMap.WF (QMap.insert m key v) := by
  induction m with
  | nil => simp [QMap.insert, QMap.WF, QMap.keys]
  | cons e rest ih =>
    obtain ⟨k, w⟩ := e
    have hk : (∀ k2 ∈ QMap.keys rest, QByteArray.lt k k2 = true) ∧ QMap.WF rest := by
      simpa [QMap.WF, QMap.keys] using h
    by_cases h1 : k = key
    · subst h1
      simpa [QMap.insert, QMap.WF, QMap.keys] using h
    · by_cases h2 : QByteArray.lt key k = true
      · simp only [QMap.insert, h1, h2, if_true, if_false]
        show List.Pairwise _ (key :: k :: QMap.keys rest)
        rw [List.pairwise_cons]
        refine ⟨?_, h⟩
        intro k2 hk2
        rcases List.mem_cons.mp hk2 with rfl | hk2
        · exact h2
        · exact QByteArray.lt_trans _ _ _ h2 (hk.1 k2 hk2)
      · simp only [QMap.insert, h1, h2, if_false]
        show List.Pairwise _ (k :: QMap.keys (QMap.insert rest key v))
        rw [List.pairwise_cons]
        refine ⟨?_, ih hk.2⟩
        intro k2 hk2
        rcases (QMap.mem_keys_insert rest key k2 v).mp hk2 with rfl | hk2
        · exact QByteArray.lt_total _ _ (fun h3 => h1 h3.symm) (by simpa using h2)
        · exact hk.1 k2 hk2

theorem QMap.insert_perm (m : QMap) (key : QByteArray) (v : QDjangoMetaModel)
    (h : key ∉ QMap.keys m) : List.Perm (QMap.insert m key v) ((key, v) :: m) := by
  induction m with
  | nil => simp [QMap.insert]
  | cons e rest ih =>
    obtain ⟨k, w⟩ := e
    have hk : ¬ key = k ∧ key ∉ QMap.keys rest := by
      simpa [QMap.keys] using h
    have h1 : ¬ k = key := fun h3 => hk.1 h3.symm
    by_cases h2 : QByteArray.lt key k = true
    · simp [QMap.insert, h1, h2]
    · simp only [QMap.insert, h1, h2, if_false]
      exact ((ih hk.2).cons (k, w)).trans (List.Perm.swap _ _ _)

theorem QMap.contains_insert_key (m : QMap) (key : QByteArray) (v : QDjangoMetaModel) :
    QMap.contains (QMap.insert m key v) key = true :=
  (QMap.contains_iff_mem_keys _ _).mpr ((QMap.mem_keys_insert m key key v).mpr (Or.inl rfl))

theorem QMap.WF_index (m : QMap) (key : QByteArray) (h : QMap.WF m) :
    QMap.WF (QMap.index m key).2 := by
  unfold QMap.index
  by_cases hc : QMap.contains m key = true
  · simpa [hc] using h
  · simpa [hc] using QMap.WF_insert m key QDjangoMetaModel.empty h

theorem registerModel_absent (reg : QMap) (object : QObject) (hne : object.objectName ≠ [])
    (h : QMap.contains reg object.objectName = false) :
    registerModel object reg =
      (object.metaModel, QMap.insert reg object.objectName object.metaModel) := by
  have h1 := QMap.contains_insert_key reg object.objectName object.metaModel
  have h2 := QMap.value_insert reg object.objectName object.objectName object.metaModel
  simp only [if_true] at h2
  simp [registerModel, h, hne, QMap.index, h1, h2]

theorem registerModelMeta_present (reg : QMap) (meta : QMetaObject)
    (h : QMap.contains reg meta.className = true) :
    registerModelMeta meta reg = (QMap.value reg meta.className, reg) := by
  simp [registerModelMeta, h, QMap.index]

theorem metaModel_of_contains (reg : QMap) (name : QByteArray) (h0 : 0 ∉ name)
    (h : QMap.contains reg name = true) : metaModel reg name = QMap.value reg name := by
  simp [metaModel, fromCStr_of_no_nul name h0, h]

/-- C5: when the registry already holds the non-empty name, a further `registerModel` with
that name, through either overload, leaves the registry unchanged and returns the stored
descriptor, and `metaModel(name)` returns it as well; so after two registrations under one
name the registry, the returned descriptor and the lookup are those of the first. -/
theorem registerModel_idempotent (reg : QMap) (name : QByteArray) (hne : name ≠ [])
    (hpresent : QMap.contains reg name = true) :
    (∀ object : QObject, object.objectName = name →
      registerModel object reg = (QMap.value reg name, reg)) ∧
    (∀ meta : QMetaObject, meta.className = name →
      registerModelMeta meta reg = (QMap.value reg name, reg)) ∧
    (0 ∉ name → metaModel reg name = QMap.value reg name) ∧
    (∀ (reg0 : QMap) (first second : QObject), first.objectName = name →
      second.objectName = name → QMap.contains reg0 name = false →
      (registerModel first reg0).1 = first.metaModel ∧
      registerModel second (registerModel first reg0).2 =
        (first.metaModel, (registerModel first reg0).2) ∧
      (0 ∉ name →
        metaModel (registerModel second (registerModel first reg0).2).2 name =
          first.metaModel)) := by
  refine ⟨?_, ?_, fun h0 => metaModel_of_contains reg name h0 hpresent, ?_⟩
  · intro object ho
    subst ho
    exact registerModel_present reg object hpresent
  · intro meta hm
    subst hm
    exact registerModelMeta_present reg meta hpresent
  · intro reg0 first second hf hs habsent
    subst hf
    have h1 := registerModel_absent reg0 first hne habsent
    have hc : QMap.contains (registerModel first reg0).2 second.objectName = true := by
      rw [h1, hs]
      exact QMap.contains_insert_key _ _ _
    have hv : QMap.value (registerModel first reg0).2 second.objectName = first.metaModel := by
      rw [h1, hs]
      show QMap.value (QMap.insert reg0 first.objectName first.metaModel) first.objectName = _
      rw [QMap.value_insert]
      simp
    have h2 := registerModel_present (registerModel first reg0).2 second hc
    rw [hv] at h2
    refine ⟨by rw [h1], h2, ?_⟩
    intro h0
    rw [h2]
    show metaModel (registerModel first reg0).2 first.objectName = first.metaModel
    rw [metaModel_of_contains _ _ h0 (hs ▸ hc), ← hs, hv]

theorem registerModel_idempotent_witness :
    ([102, 111, 111] : QByteArray) ≠ [] ∧
    QMap.contains fooBarRegistry [102, 111, 111] = true ∧
    (∀ object : QObject, object.objectName = [102, 111, 111] →
      registerModel object fooBarRegistry =
        (QMap.value fooBarRegistry [102, 111, 111], fooBarRegistry)) :=
  ⟨by decide, by decide,
    (registerModel_idempotent fooBarRegistry [102, 111, 111] (by decide) (by decide)).1⟩

/-- C7: `metaModel(name)` returns the descriptor stored under exactly `name` when there is
one; otherwise, when some key equals `name` ignoring case, the descriptor of such a key;
otherwise the empty descriptor. -/
theorem metaModel_exact_then_ignoring_case (reg : QMap) (name : List Nat) :
    (QMap.contains reg (QByteArray.fromCStr name) = true →
      metaModel reg name = QMap.value reg (QByteArray.fromCStr name)) ∧
    (QMap.contains reg (QByteArray.fromCStr name) = false →
      (∃ k ∈ QMap.keys reg, EqIgnoreCase name k) →
      ∃ k ∈ QMap.keys reg, EqIgnoreCase name k ∧ metaModel reg name = QMap.value reg k) ∧
    (QMap.contains reg (QByteArray.fromCStr name) = false →
      (∀ k ∈ QMap.keys reg, ¬ EqIgnoreCase name k) →
      metaModel reg name = QDjangoMetaModel.empty) := by
  refine ⟨fun h => by simp [metaModel, h], ?_, ?_⟩
  · intro h hex
    have hm : metaModel reg name = metaModelScan reg name (QMap.keys reg) := by
      simp [metaModel, h]
    rcases metaModelScan_spec reg name (QMap.keys reg) with ⟨pre, k, post, h1, _, h3, h4⟩ | ⟨h1, _⟩
    · exact ⟨k, by rw [h1]; simp, h3, by rw [hm, h4]⟩
    · obtain ⟨k, hk, hkm⟩ := hex
      exact absurd hkm (h1 k hk)
  · intro h hall
    have hm : metaModel reg name = metaModelScan reg name (QMap.keys reg) := by
      simp [metaModel, h]
    rcases metaModelScan_spec reg name (QMap.keys reg) with ⟨pre, k, post, h1, _, h3, _⟩ | ⟨_, h2⟩
    · exact absurd h3 (hall k (by rw [h1]; simp))
    · rw [hm, h2]

theorem metaModel_exact_then_ignoring_case_witness :
    (QMap.contains fooBarRegistry (QByteArray.fromCStr [102, 111, 111]) = true ∧
      metaModel fooBarRegistry [102, 111, 111] =
        QMap.value fooBarRegistry (QByteArray.fromCStr [102, 111, 111])) ∧
    (QMap.contains fooBarRegistry (QByteArray.fromCStr [70, 111, 111]) = false ∧
      ∃ k ∈ QMap.keys fooBarRegistry, EqIgnoreCase [70, 111, 111] k ∧
        metaModel fooBarRegistry [70, 111, 111] = QMap.value fooBarRegistry k) ∧
    (QMap.contains fooBarRegistry (QByteArray.fromCStr [122]) = false ∧
      metaModel fooBarRegistry [122] = QDjangoMetaModel.empty) :=
  ⟨⟨by decide, (metaModel_exact_then_ignoring_case fooBarRegistry [102, 111, 111]).1
      (by decide)⟩,
    ⟨by decide, (metaModel_exact_then_ignoring_case fooBarRegistry [70, 111, 111]).2.1
      (by decide) ⟨[102, 111, 111], by decide, by decide⟩⟩,
    ⟨by decide, (metaModel_exact_then_ignoring_case fooBarRegistry [122]).2.2
      (by decide) (by decide)⟩⟩

/-- C8, evaluated: `registerModel(object)` with an object whose name is empty, on the empty
registry, returns the empty descriptor and leaves a registry that holds an entry under the
empty key; `unregisterModel` with the same object does not remove it. -/
theorem registerModel_empty_name_adds_entry :
    registerModel ⟨[], ⟨7, []⟩⟩ [] = (QDjangoMetaModel.empty, [([], QDjangoMetaModel.empty)]) ∧
    QMap.contains (registerModel ⟨[], ⟨7, []⟩⟩ []).2 [] = true ∧
    unregisterModel ⟨[], ⟨7, []⟩⟩ (registerModel ⟨[], ⟨7, []⟩⟩ []).2 =
      [([], QDjangoMetaModel.empty)] := by
  decide

theorem registerModel_wf (object : QObject) (reg : QMap) (h : QMap.WF reg) :
    QMap.WF (registerModel object reg).2 := by
  unfold registerModel
  apply QMap.WF_index
  split
  · exact QMap.WF_insert _ _ _ h
  · exact h

theorem registerAll_cons (object : QObject) (objects : List QObject) (reg : QMap) :
    registerAll (object :: objects) reg = registerAll objects (registerModel object reg).2 :=
  rfl

theorem registerAll_wf : ∀ (objects : List QObject) (reg : QMap), QMap.WF reg →
    QMap.WF (registerAll objects reg) := by
  intro objects
  induction objects with
  | nil => intro reg h; exact h
  | cons o os ih =>
    intro reg h
    rw [registerAll_cons]
    exact ih _ (registerModel_wf o reg h)

/-- C6, as stated, fails: after registering `"foo"` and then `"FOO"`, `metaModel("Foo")`
returns the descriptor registered second, under `"FOO"`, the smaller key in byte order. -/
theorem metaModel_first_registered_counterexample :
    registerAll fooObjects [] = [([70, 79, 79], ⟨2, []⟩), ([102, 111, 111], ⟨1, []⟩)] ∧
    QMap.contains (registerAll fooObjects []) (QByteArray.fromCStr [70, 111, 111]) = false ∧
    metaModel (registerAll fooObjects []) [70, 111, 111] = ⟨2, []⟩ ∧
    metaModel (registerAll fooObjects []) [70, 111, 111] ≠
      QMap.value (registerAll fooObjects []) [102, 111, 111] := by
  decide

/-- C6, amended: in a registry built by any sequence of registrations, `metaModel(name)` for
a name without exact match that equals some keys ignoring case returns the descriptor stored
under the smallest of those keys in byte order, whatever the order of registration. -/
theorem metaModel_least_case_variant (reg0 : QMap) (hwf : QMap.WF reg0)
    (objects : List QObject) (name : List Nat)
    (hno : QMap.contains (registerAll objects reg0) (QByteArray.fromCStr name) = false)
    (hsome : ∃ k ∈ QMap.keys (registerAll objects reg0), EqIgnoreCase name k) :
    ∃ k ∈ QMap.keys (registerAll objects reg0), EqIgnoreCase name k ∧
      (∀ k2 ∈ QMap.keys (registerAll objects reg0), EqIgnoreCase name k2 →
        k2 = k ∨ QByteArray.lt k k2 = true) ∧
      metaModel (registerAll objects reg0) name = QMap.value (registerAll objects reg0) k := by
  have hw := registerAll_wf objects reg0 hwf
  generalize registerAll objects reg0 = reg at hno hsome hw ⊢
  have hm : metaModel reg name = metaModelScan reg name (QMap.keys reg) := by
    simp [metaModel, hno]
  rcases metaModelScan_spec reg name (QMap.keys reg) with ⟨pre, k, post, h1, h2, h3, h4⟩ | ⟨h1, _⟩
  · refine ⟨k, by rw [h1]; simp, h3, ?_, by rw [hm, h4]⟩
    intro k2 hk2 hm2
    unfold QMap.WF at hw
    rw [h1] at hk2 hw
    rcases List.mem_append.mp hk2 with hp | hp
    · exact absurd hm2 (h2 k2 hp)
    · rcases List.mem_cons.mp hp with rfl | hp
      · exact Or.inl rfl
      · right
        have := (List.pairwise_append.mp hw).2.1
        exact (List.pairwise_cons.mp this).1 k2 hp
  · obtain ⟨k, hk, hkm⟩ := hsome
    exact absurd hkm (h1 k hk)

theorem metaModel_least_case_variant_witness :
    QMap.WF [] ∧
    QMap.contains (registerAll fooObjects []) (QByteArray.fromCStr [70, 111, 111]) = false ∧
    (∃ k ∈ QMap.keys (registerAll fooObjects []), EqIgnoreCase [70, 111, 111] k) ∧
    ∃ k ∈ QMap.keys (registerAll fooObjects []), EqIgnoreCase [70, 111, 111] k ∧
      (∀ k2 ∈ QMap.keys (registerAll fooObjects []), EqIgnoreCase [70, 111, 111] k2 →
        k2 = k ∨ QByteArray.lt k k2 = true) ∧
      metaModel (registerAll fooObjects []) [70, 111, 111] =
        QMap.value (registerAll fooObjects []) k :=
  ⟨List.Pairwise.nil, by decide, ⟨[102, 111, 111], by decide, by decide⟩,
    metaModel_least_case_variant [] List.Pairwise.nil fooObjects [70, 111, 111] (by decide)
      ⟨[102, 111, 111], by decide, by decide⟩⟩

/-! ## Registration order and traversal order: C9 -/

theorem registerAll_perm : ∀ (objects : List QObject) (reg : QMap),
    (objects.map (fun o => o.objectName)).Nodup →
    (∀ o ∈ objects, o.objectName ≠ []) →
    (∀ o ∈ objects, o.objectName ∉ QMap.keys reg) →
    List.Perm (registerAll objects reg) (objects.map QObject.entry ++ reg) := by
  intro objects
  induction objects with
  | nil => intro reg _ _ _; exact List.Perm.refl _
  | cons o os ih =>
    intro reg hnd hne hfresh
    have hnd2 : o.objectName ∉ os.map (fun o => o.objectName) ∧
        (os.map (fun o => o.objectName)).Nodup := by
      simpa using hnd
    have ho : o.objectName ∉ QMap.keys reg := hfresh o (List.mem_cons_self _ _)
    have habs : QMap.contains reg o.objectName = false := by
      by_contra hc
      exact ho ((QMap.contains_iff_mem_keys _ _).mp (by simpa using hc))
    have hreg := registerModel_absent reg o (hne o (List.mem_cons_self _ _)) habs
    rw [registerAll_cons, hreg]
    have hfresh2 : ∀ p ∈ os, p.objectName ∉
        QMap.keys (QMap.insert reg o.objectName o.metaModel) := by
      intro p hp hmem
      rcases (QMap.mem_keys_insert _ _ _ _).mp hmem with h | h
      · exact hnd2.1 (List.mem_map.mpr ⟨p, hp, h⟩)
      · exact hfresh p (List.mem_cons_of_mem _ hp) h
    have h1 := ih (QMap.insert reg o.objectName o.metaModel) hnd2.2
      (fun p hp => hne p (List.mem_cons_of_mem _ hp)) hfresh2
    have h2 : List.Perm (os.map QObject.entry ++ QMap.insert reg o.objectName o.metaModel)
        (os.map QObject.entry ++ (o.entry :: reg)) :=
      List.Perm.append_left _ (QMap.insert_perm reg _ _ ho)
    exact (h1.trans h2).trans List.perm_middle

theorem QMap.eq_of_perm_of_wf {m1 m2 : QMap} (hp : List.Perm m1 m2) (h1 : QMap.WF m1)
    (h2 : QMap.WF m2) : m1 = m2 := by
  haveI : IsAntisymm (QByteArray × QDjangoMetaModel)
      (fun a b => QByteArray.lt a.1 b.1 = true) :=
    ⟨fun a b hab hba => by
      rw [QByteArray.lt_asymm _ _ hab] at hba
      exact absurd hba Bool.false_ne_true⟩
  have s1 : List.Sorted (fun a b : QByteArray × QDjangoMetaModel =>
      QByteArray.lt a.1 b.1 = true) m1 := List.pairwise_map.mp h1
  have s2 : List.Sorted (fun a b : QByteArray × QDjangoMetaModel =>
      QByteArray.lt a.1 b.1 = true) m2 := List.pairwise_map.mp h2
  exact List.eq_of_perm_of_sorted hp s1 s2

theorem QMap.zip_keys_values (m : QMap) : (QMap.keys m).zip (m.map Prod.snd) = m := by
  induction m with
  | nil => rfl
  | cons a t ih =>
    simp only [QMap.keys] at ih
    simp [QMap.keys, ih]

theorem registerAll_eq_of_perm (objects objects2 : List QObject)
    (hnd : (objects.map (fun o => o.objectName)).Nodup)
    (hne : ∀ o ∈ objects, o.objectName ≠ []) (hp : List.Perm objects2 objects) :
    registerAll objects2 [] = registerAll objects [] := by
  have hnd2 : (objects2.map (fun o => o.objectName)).Nodup :=
    (hp.map _).nodup_iff.mpr hnd
  have hne2 : ∀ o ∈ objects2, o.objectName ≠ [] := fun o ho => hne o (hp.subset ho)
  have h1 := registerAll_perm objects [] hnd hne (fun _ _ h => by simp [QMap.keys] at h)
  have h2 := registerAll_perm objects2 [] hnd2 hne2 (fun _ _ h => by simp [QMap.keys] at h)
  refine QMap.eq_of_perm_of_wf ?_ (registerAll_wf _ _ List.Pairwise.nil)
    (registerAll_wf _ _ List.Pairwise.nil)
  exact h2.trans (((hp.map _).append_right _).trans h1.symm)

theorem visitEach_leaves (fuel : Nat) : ∀ (ks : List QByteArray) (s : SortState),
    (∀ k ∈ ks, QMap.contains s.models k = true ∧ (QMap.value s.models k).foreignFields = []) →
    ks.Nodup → (∀ k ∈ ks, k ∉ s.visited) →
    visitEach (qdjango_topsort (fuel + 1)) ks s =
      some { models := s.models, visited := ks.reverse ++ s.visited,
             stack := s.stack ++ ks.map (QMap.value s.models), order := s.order ++ ks } := by
  intro ks
  induction ks with
  | nil => intro s _ _ _; simp [visitEach]
  | cons k rest ih =>
    intro s hleaf hnd hunv
    have hk := hleaf k (List.mem_cons_self _ _)
    have hnd2 : k ∉ rest ∧ rest.Nodup := by simpa using hnd
    have hidx : QMap.index s.models k = (QMap.value s.models k, s.models) := by
      simp [QMap.index, hk.1]
    have htop : qdjango_topsort (fuel + 1) k s =
        some { models := s.models, visited := k :: s.visited,
               stack := s.stack ++ [QMap.value s.models k], order := s.order ++ [k] } := by
      rw [qdjango_topsort_succ, hidx]
      simp only [hk.2, visitEach, Option.map_some']
    rw [visitEach_cons_unvisited _ _ _ _ (hunv k (List.mem_cons_self _ _)), htop]
    simp only [Option.some_bind]
    rw [ih]
    · simp
    · intro k2 hk2
      exact hleaf k2 (List.mem_cons_of_mem _ hk2)
    · exact hnd2.2
    · intro k2 hk2 hmem
      rcases List.mem_cons.mp hmem with h | h
      · exact hnd2.1 (h ▸ hk2)
      · exact hunv k2 (List.mem_cons_of_mem _ hk2) h

theorem sorted_metamodels_of_leaves (reg : QMap) (hwf : QMap.WF reg)
    (hleaf : ∀ e ∈ reg, e.2.foreignFields = []) :
    qdjango_sorted_metamodels reg =
      some { models := reg, visited := (QMap.keys reg).reverse,
             stack := reg.map Prod.snd, order := QMap.keys reg } := by
  cases hreg : reg with
  | nil => rfl
  | cons e rest =>
    rw [← hreg]
    have hlen : (allNames reg).length = ((allNames reg).length - 1) + 1 := by
      have : 0 < (allNames reg).length := by
        rw [hreg]
        simp [allNames, QMap.keys]
      omega
    unfold qdjango_sorted_metamodels
    rw [hlen, visitEach_leaves]
    · simp [QMap.map_value_keys reg hwf.nodup_keys]
    · intro k hk
      refine ⟨(QMap.contains_iff_mem_keys _ _).mpr hk, ?_⟩
      rcases QMap.value_mem_or_empty reg k with h | ⟨_, h⟩
      · exact hleaf _ h
      · show (QMap.value reg k).foreignFields = []
        rw [h]
        rfl
    · exact hwf.nodup_keys
    · intro k _ h
      simp at h

/-- C9, as stated, fails: registering `"b"` and then `"a"`, neither with a foreign
relationship, yields the stack with the descriptor of `"a"` first, not the order of
registration; registering them the other way round yields the same stack. -/
theorem sorted_metamodels_insertion_order_counterexample :
    (qdjango_sorted_metamodels (registerAll baObjects [])).map (fun r => r.stack) =
      some [⟨2, []⟩, ⟨1, []⟩] ∧
    baObjects.map (fun o => o.metaModel) = [⟨1, []⟩, ⟨2, []⟩] ∧
    (qdjango_sorted_metamodels (registerAll baObjects [])).map (fun r => r.stack) ≠
      some (baObjects.map (fun o => o.metaModel)) ∧
    (qdjango_sorted_metamodels (registerAll baObjects.reverse [])).map (fun r => r.stack) =
      (qdjango_sorted_metamodels (registerAll baObjects [])).map (fun r => r.stack) := by
  decide

/-- C9, amended: for every sequence of registrations of distinct non-empty names in which no
model declares a foreign relationship, `qdjango_sorted_metamodels` returns the registered
descriptors in strictly ascending byte order of their names, and the result is the same for
every order of the registrations. -/
theorem sorted_metamodels_key_order (objects : List QObject)
    (hdistinct : (objects.map (fun o => o.objectName)).Nodup)
    (hnonempty : ∀ o ∈ objects, o.objectName ≠ [])
    (hleaf : ∀ o ∈ objects, o.metaModel.foreignFields = []) :
    ∃ r, qdjango_sorted_metamodels (registerAll objects []) = some r ∧
      List.Pairwise (fun a b => QByteArray.lt a b = true) r.order ∧
      List.Perm (r.order.zip r.stack) (objects.map QObject.entry) ∧
      r.order.length = r.stack.length ∧
      ∀ objects2, List.Perm objects2 objects →
        qdjango_sorted_metamodels (registerAll objects2 []) = some r := by
  have hwf := registerAll_wf objects [] List.Pairwise.nil
  have hperm := registerAll_perm objects [] hdistinct hnonempty
    (fun _ _ h => by simp [QMap.keys] at h)
  rw [List.append_nil] at hperm
  have hl : ∀ e ∈ registerAll objects [], e.2.foreignFields = [] := by
    intro e he
    obtain ⟨o, ho, hoe⟩ := List.mem_map.mp (hperm.subset he)
    rw [← hoe]
    exact hleaf o ho
  have hs := sorted_metamodels_of_leaves _ hwf hl
  refine ⟨_, hs, hwf, ?_, by simp [QMap.keys], ?_⟩
  · show List.Perm ((QMap.keys (registerAll objects [])).zip
      ((registerAll objects []).map Prod.snd)) _
    rw [QMap.zip_keys_values]
    exact hperm
  · intro objects2 hp
    rw [registerAll_eq_of_perm objects objects2 hdistinct hnonempty hp]
    exact hs

theorem sorted_metamodels_key_order_witness :
    (baObjects.map (fun o => o.objectName)).Nodup ∧
    (∀ o ∈ baObjects, o.objectName ≠ []) ∧
    (∀ o ∈ baObjects, o.metaModel.foreignFields = []) ∧
    ∃ r, qdjango_sorted_metamodels (registerAll baObjects []) = some r ∧
      List.Pairwise (fun a b => QByteArray.lt a b = true) r.order ∧
      List.Perm (r.order.zip r.stack) (baObjects.map QObject.entry) ∧
      r.order.length = r.stack.length ∧
      ∀ objects2, List.Perm objects2 baObjects →
        qdjango_sorted_metamodels (registerAll objects2 []) = some r :=
  ⟨by decide, by decide, by decide,
    sorted_metamodels_key_order baObjects (by decide) (by decide) (by decide)⟩

/-! ## Connections per thread: C10 -/

theorem QString.number_injective {a b : Nat} (h : QString.number a = QString.number b) :
    a = b := by
  unfold QString.number at h
  have hinj : Function.Injective (fun d : Nat => d + 48) := fun x y hxy => by
    simpa using hxy
  have key : ∀ n : Nat, n ≠ 0 → (Nat.digits 10 n).reverse.map (fun d => d + 48) ≠ [48] := by
    intro n hn heq
    have h1 : (Nat.digits 10 n).reverse = [0] := by
      have : (Nat.digits 10 n).reverse.map (fun d => d + 48) = [0].map (fun d => d + 48) := by
        simpa using heq
      exact List.map_injective_iff.mpr hinj this
    have h2 : Nat.digits 10 n = [0] := by
      have := congrArg List.reverse h1
      simpa using this
    have h3 := Nat.getLast_digit_ne_zero 10 hn
    simp [h2] at h3
  by_cases ha : a = 0 <;> by_cases hb : b = 0
  · rw [ha, hb]
  · simp only [ha, hb, if_true, if_false] at h
    exact absurd h.symm (key b hb)
  · simp only [ha, hb, if_true, if_false] at h
    exact absurd h (key a ha)
  · simp only [ha, hb, if_false] at h
    have h1 := List.map_injective_iff.mpr hinj h
    have h2 := List.reverse_injective h1
    exact Nat.digits_inj_iff.mp h2

theorem Copies.remove_cons (w : QThread) (db : QSqlDatabase) (rest : Copies) (t : QThread) :
    Copies.remove ((w, db) :: rest) t =
      if w = t then Copies.remove rest t else (w, db) :: Copies.remove rest t := rfl

theorem Copies.contains_cons (w : QThread) (db : QSqlDatabase) (rest : Copies) (t : QThread) :
    Copies.contains ((w, db) :: rest) t = if w = t then true else Copies.contains rest t := rfl

theorem Copies.value_cons (w : QThread) (db : QSqlDatabase) (rest : Copies) (t : QThread) :
    Copies.value ((w, db) :: rest) t = if w = t then db else Copies.value rest t := rfl

theorem Copies.remove_eq_filter (c : Copies) (t : QThread) :
    Copies.remove c t = c.filter (fun e => decide (e.1 ≠ t)) := by
  induction c with
  | nil => rfl
  | cons e rest ih =>
    obtain ⟨u, db⟩ := e
    rw [Copies.remove_cons, ih]
    by_cases h : u = t
    · simp [h]
    · simp [h]

theorem Copies.contains_remove_ne (c : Copies) {u t : QThread} (h : u ≠ t) :
    Copies.contains (Copies.remove c u) t = Copies.contains c t := by
  induction c with
  | nil => rfl
  | cons e rest ih =>
    obtain ⟨w, db⟩ := e
    rw [Copies.remove_cons, Copies.contains_cons]
    by_cases hw : w = u
    · have hwt : ¬ w = t := fun h2 => h (hw.symm.trans h2)
      rw [if_pos hw, if_neg hwt, ih]
    · rw [if_neg hw, Copies.contains_cons, ih]

theorem Copies.value_remove_ne (c : Copies) {u t : QThread} (h : u ≠ t) :
    Copies.value (Copies.remove c u) t = Copies.value c t := by
  induction c with
  | nil => rfl
  | cons e rest ih =>
    obtain ⟨w, db⟩ := e
    rw [Copies.remove_cons, Copies.value_cons]
    by_cases hw : w = u
    · have hwt : ¬ w = t := fun h2 => h (hw.symm.trans h2)
      rw [if_pos hw, if_neg hwt, ih]
    · rw [if_neg hw, Copies.value_cons, ih]

theorem Copies.mem_of_contains (c : Copies) (t : QThread)
    (h : Copies.contains c t = true) : (t, Copies.value c t) ∈ c := by
  induction c with
  | nil => simp [Copies.contains] at h
  | cons e rest ih =>
    obtain ⟨w, db⟩ := e
    rw [Copies.contains_cons] at h
    rw [Copies.value_cons]
    by_cases hw : w = t
    · rw [if_pos hw, hw]
      exact List.mem_cons_self _ _
    · rw [if_neg hw] at h ⊢
      exact List.mem_cons_of_mem _ (ih h)

theorem Copies.contains_insert_thread (c : Copies) (t : QThread) (db : QSqlDatabase) :
    Copies.contains (Copies.insert c t db) t = true := by
  simp [Copies.insert, Copies.contains_cons]

theorem Copies.value_insert_thread (c : Copies) (t : QThread) (db : QSqlDatabase) :
    Copies.value (Copies.insert c t db) t = db := by
  simp [Copies.insert, Copies.value_cons]

theorem Copies.contains_insert_ne (c : Copies) {u t : QThread} (h : u ≠ t)
    (db : QSqlDatabase) :
    Copies.contains (Copies.insert c u db) t = Copies.contains c t := by
  unfold Copies.insert
  rw [Copies.contains_cons, if_neg h, Copies.contains_remove_ne c h]

theorem Copies.value_insert_ne (c : Copies) {u t : QThread} (h : u ≠ t)
    (db : QSqlDatabase) :
    Copies.value (Copies.insert c u db) t = Copies.value c t := by
  unfold Copies.insert
  rw [Copies.value_cons, if_neg h, Copies.value_remove_ne c h]

theorem database_of_owner {s : Manager} {g : QDjangoDatabase}
    (hg : s.globalDatabase = some g) : database g.thread s = (g.reference, s) := by
  simp [database, hg]

theorem database_of_contains {s : Manager} {g : QDjangoDatabase} {t : QThread}
    (hg : s.globalDatabase = some g) (ht : t ≠ g.thread)
    (hc : Copies.contains g.copies t = true) :
    database t s = (Copies.value g.copies t, s) := by
  simp [database, hg, ht, hc]

theorem database_of_new {s : Manager} {g : QDjangoDatabase} {t : QThread}
    (hg : s.globalDatabase = some g) (ht : t ≠ g.thread)
    (hc : ¬ Copies.contains g.copies t = true) :
    database t s =
      (QSqlDatabase.cloneDatabase g.reference
          (connectionPrefix ++ QString.number g.connectionId),
        { s with
          globalDatabase := some { g with
            connectionId := g.connectionId + 1,
            copies := Copies.insert g.copies t
              (QSqlDatabase.cloneDatabase g.reference
                (connectionPrefix ++ QString.number g.connectionId)) },
          connections :=
            if g.reference.valid = true then
              (connectionPrefix ++ QString.number g.connectionId) :: s.connections
            else s.connections }) := by
  simp [database, hg, ht, hc]

theorem cloneDatabase_of_valid {other : QSqlDatabase} (h : other.valid = true)
    (name : QString) :
    QSqlDatabase.cloneDatabase other name = { other with connectionName := name } := by
  simp [QSqlDatabase.cloneDatabase, h]

theorem cloneDatabase_of_invalid {other : QSqlDatabase} (h : other.valid = false)
    (name : QString) : QSqlDatabase.cloneDatabase other name = QSqlDatabase.invalid := by
  simp [QSqlDatabase.cloneDatabase, h]

theorem database_reference {s : Manager} {g : QDjangoDatabase} (t : QThread)
    (hg : s.globalDatabase = some g) :
    ∀ g1, (database t s).2.globalDatabase = some g1 → g1.reference = g.reference := by
  intro g1 hg1
  by_cases ht : t = g.thread
  · rw [ht, database_of_owner hg, hg] at hg1
    rw [← Option.some.inj hg1]
  · by_cases hc : Copies.contains g.copies t = true
    · rw [database_of_contains hg ht hc, hg] at hg1
      rw [← Option.some.inj hg1]
    · rw [database_of_new hg ht hc] at hg1
      rw [← Option.some.inj hg1]

theorem threadFinished_globalDatabase {s : Manager} {g : QDjangoDatabase} (u : QThread)
    (hg : s.globalDatabase = some g) :
    (threadFinished (some u) s).globalDatabase =
      some { g with copies := Copies.remove g.copies u } := by
  simp only [threadFinished, hg]
  split <;> rfl

theorem database_spec {s : Manager} {g : QDjangoDatabase} {t : QThread}
    (hg : s.globalDatabase = some g) (ht : t ≠ g.thread) :
    ∃ g1, (database t s).2.globalDatabase = some g1 ∧ g1.thread = g.thread ∧
      Copies.contains g1.copies t = true ∧ Copies.value g1.copies t = (database t s).1 := by
  by_cases hc : Copies.contains g.copies t = true
  · rw [database_of_contains hg ht hc]
    exact ⟨g, hg, rfl, hc, rfl⟩
  · rw [database_of_new hg ht hc]
    exact ⟨_, rfl, rfl, Copies.contains_insert_thread _ _ _, Copies.value_insert_thread _ _ _⟩

theorem StepsKeeping.keeps {t : QThread} {s s1 : Manager} (h : StepsKeeping t s s1) :
    ∀ g, s.globalDatabase = some g → Copies.contains g.copies t = true →
      ∃ g1, s1.globalDatabase = some g1 ∧ g1.thread = g.thread ∧
        Copies.contains g1.copies t = true ∧
        Copies.value g1.copies t = Copies.value g.copies t := by
  induction h with
  | refl => intro g hg hc; exact ⟨g, hg, rfl, hc, rfl⟩
  | database u _ ih =>
    intro g hg hc
    obtain ⟨g1, h1, h2, h3, h4⟩ := ih g hg hc
    by_cases hu : u = g1.thread
    · refine ⟨g1, ?_, h2, h3, h4⟩
      rw [hu, database_of_owner h1]
      exact h1
    · by_cases hcu : Copies.contains g1.copies u = true
      · refine ⟨g1, ?_, h2, h3, h4⟩
        rw [database_of_contains h1 hu hcu]
        exact h1
      · have hut : u ≠ t := fun h5 => hcu (h5 ▸ h3)
        rw [database_of_new h1 hu hcu]
        refine ⟨_, rfl, h2, ?_, ?_⟩
        · show Copies.contains (Copies.insert g1.copies u _) t = true
          rw [Copies.contains_insert_ne _ hut, h3]
        · show Copies.value (Copies.insert g1.copies u _) t = _
          rw [Copies.value_insert_ne _ hut, h4]
  | threadFinished sender hs _ ih =>
    intro g hg hc
    obtain ⟨g1, h1, h2, h3, h4⟩ := ih g hg hc
    cases sender with
    | none => exact ⟨g1, h1, h2, h3, h4⟩
    | some u =>
      have hut : u ≠ t := fun h5 => hs (by rw [h5])
      refine ⟨_, threadFinished_globalDatabase u h1, h2, ?_, ?_⟩
      · show Copies.contains (Copies.remove g1.copies u) t = true
        rw [Copies.contains_remove_ne _ hut, h3]
      · show Copies.value (Copies.remove g1.copies u) t = _
        rw [Copies.value_remove_ne _ hut, h4]

theorem CopiesFresh.after_remove {g : QDjangoDatabase} (h : CopiesFresh g) (u : QThread) :
    CopiesFresh { g with copies := Copies.remove g.copies u } := by
  obtain ⟨h1, h2⟩ := h
  refine ⟨?_, ?_⟩
  · show List.Pairwise (fun a b : QThread × QSqlDatabase => a.1 ≠ b.1 ∧
      (g.reference.valid = true → a.2.connectionName ≠ b.2.connectionName))
      (Copies.remove g.copies u)
    rw [Copies.remove_eq_filter]
    exact h1.sublist (List.filter_sublist _)
  · intro e he
    have he2 : e ∈ Copies.remove g.copies u := he
    rw [Copies.remove_eq_filter] at he2
    exact h2 e (List.mem_of_mem_filter he2)

theorem CopiesFresh.after_database {s : Manager} {g : QDjangoDatabase}
    (hg : s.globalDatabase = some g) (h : CopiesFresh g) (t : QThread) :
    ∀ g1, (database t s).2.globalDatabase = some g1 → CopiesFresh g1 := by
  intro g1 hg1
  by_cases ht : t = g.thread
  · rw [ht, database_of_owner hg, hg] at hg1
    exact Option.some.inj hg1 ▸ h
  · by_cases hc : Copies.contains g.copies t = true
    · rw [database_of_contains hg ht hc, hg] at hg1
      exact Option.some.inj hg1 ▸ h
    · rw [database_of_new hg ht hc] at hg1
      have hg2 := Option.some.inj hg1
      subst hg2
      obtain ⟨h1, h2⟩ := h
      refine ⟨?_, ?_⟩
      · show List.Pairwise (fun a b : QThread × QSqlDatabase => a.1 ≠ b.1 ∧
          (g.reference.valid = true → a.2.connectionName ≠ b.2.connectionName))
          (Copies.insert g.copies t _)
        unfold Copies.insert
        rw [List.pairwise_cons]
        refine ⟨?_, ?_⟩
        · intro e he
          rw [Copies.remove_eq_filter] at he
          have he1 := List.mem_of_mem_filter he
          have he2 : e.1 ≠ t := by simpa using (List.mem_filter.mp he).2
          refine ⟨fun h3 => he2 h3.symm, ?_⟩
          intro hvalid
          rcases h2 e he1 with ⟨_, k, hk, hname⟩ | ⟨hinv, _⟩
          · intro heq
            rw [cloneDatabase_of_valid hvalid, hname] at heq
            have h4 : QString.number g.connectionId = QString.number k :=
              List.append_cancel_left heq
            have h5 := QString.number_injective h4
            omega
          · rw [hvalid] at hinv
            exact absurd hinv (by simp)
        · rw [Copies.remove_eq_filter]
          exact h1.sublist (List.filter_sublist _)
      · intro e he
        have he2 : e ∈ Copies.insert g.copies t
            (QSqlDatabase.cloneDatabase g.reference
              (connectionPrefix ++ QString.number g.connectionId)) := he
        unfold Copies.insert at he2
        rcases List.mem_cons.mp he2 with h3 | h3
        · by_cases hvalid : g.reference.valid = true
          · left
            refine ⟨hvalid, g.connectionId, Nat.lt_succ_self _, ?_⟩
            rw [h3, cloneDatabase_of_valid hvalid]
          · right
            have hinv : g.reference.valid = false := by simpa using hvalid
            exact ⟨hinv, by rw [h3, cloneDatabase_of_invalid hinv]⟩
        · rw [Copies.remove_eq_filter] at h3
          rcases h2 e (List.mem_of_mem_filter h3) with ⟨hv, k, hk, hname⟩ | hinv
          · exact Or.inl ⟨hv, k, Nat.lt_succ_of_lt hk, hname⟩
          · exact Or.inr hinv

theorem ManagerStep.keeps_fresh {s t : Manager} (h : ManagerStep s t)
    (ih : ∀ g, s.globalDatabase = some g → CopiesFresh g) :
    ∀ g, t.globalDatabase = some g → CopiesFresh g := by
  cases h with
  | database thread =>
    intro g1 hg1
    cases hs0 : s.globalDatabase with
    | none =>
      have : (QDjango.database thread s).2 = s := by simp [QDjango.database, hs0]
      rw [this, hs0] at hg1
      exact absurd hg1 (by simp)
    | some g0 => exact CopiesFresh.after_database hs0 (ih g0 hs0) thread g1 hg1
  | threadFinished thread =>
    intro g1 hg1
    cases hs0 : s.globalDatabase with
    | none =>
      have : QDjango.threadFinished (some thread) s = s := by
        simp [QDjango.threadFinished, hs0]
      rw [this, hs0] at hg1
      exact absurd hg1 (by simp)
    | some g0 =>
      rw [threadFinished_globalDatabase thread hs0] at hg1
      exact Option.some.inj hg1 ▸ (ih g0 hs0).after_remove thread

theorem Reachable.fresh_names {s : Manager} (h : Reachable s) :
    ∀ g, s.globalDatabase = some g → CopiesFresh g := by
  induction h with
  | init thread reference connections released =>
    intro g hg
    have hg2 : (⟨thread, reference, [], 0⟩ : QDjangoDatabase) = g := Option.some.inj hg
    subst hg2
    exact ⟨List.Pairwise.nil, fun e he => by simp at he⟩
  | step _ hstep ih => exact hstep.keeps_fresh ih

theorem CopiesFresh.distinct {g : QDjangoDatabase} (h : CopiesFresh g)
    (hvalid : g.reference.valid = true) {t1 t2 : QThread}
    (hne : t1 ≠ t2) (h1 : Copies.contains g.copies t1 = true)
    (h2 : Copies.contains g.copies t2 = true) :
    (Copies.value g.copies t1).connectionName ≠ (Copies.value g.copies t2).connectionName := by
  have m1 := Copies.mem_of_contains _ _ h1
  have m2 := Copies.mem_of_contains _ _ h2
  have hsymm : Symmetric (fun a b : QThread × QSqlDatabase =>
      a.1 ≠ b.1 ∧ (g.reference.valid = true → a.2.connectionName ≠ b.2.connectionName)) :=
    fun a b hab => ⟨fun h3 => hab.1 h3.symm, fun hv h3 => hab.2 hv h3.symm⟩
  have := List.Pairwise.forall hsymm h.1 m1 m2
    (fun heq => hne (congrArg Prod.fst heq))
  exact this.2 hvalid

/-- C10, as stated, fails: with an invalid reference connection the library's
`cloneDatabase` returns a default-constructed handle, so after `database()` calls from the
threads `1` and `2` the map holds, for these two distinct threads, clones with the same
(empty) connection name. -/
theorem database_invalid_reference_counterexample :
    Reachable (database 2 (database 1 invalidManager).2).2 ∧
    (1 : QThread) ≠ 2 ∧
    (∃ g, (database 2 (database 1 invalidManager).2).2.globalDatabase = some g ∧
      Copies.contains g.copies 1 = true ∧ Copies.contains g.copies 2 = true ∧
      (Copies.value g.copies 1).connectionName = (Copies.value g.copies 2).connectionName) ∧
    (database 1 invalidManager).1.connectionName = [] ∧
    (database 2 (database 1 invalidManager).2).1.connectionName = [] :=
  ⟨Reachable.step (Reachable.step (Reachable.init 0 _ _ _) (ManagerStep.database 1 _))
      (ManagerStep.database 2 _),
    by decide, ⟨_, rfl, rfl, rfl, rfl⟩, rfl, rfl⟩

/-- C10, amended: a non-owning thread `t` that has called `database()` gets, from a later
`database()` call with no `threadFinished()` for `t` in between, the same clone under the
same connection name, that call leaving the state (map and counter) unchanged; and in every
state reached by `database()` and `threadFinished()` steps whose reference connection is
valid, the clones kept for two distinct threads, and those returned to two distinct
non-owning threads, have distinct connection names. -/
theorem database_same_clone_distinct_names :
    (∀ (s : Manager) (g : QDjangoDatabase) (t : QThread), s.globalDatabase = some g →
      t ≠ g.thread → ∀ s1, StepsKeeping t (database t s).2 s1 →
        (database t s1).1 = (database t s).1 ∧
        (database t s1).1.connectionName = (database t s).1.connectionName ∧
        (database t s1).2 = s1) ∧
    (∀ s, Reachable s → ∀ g, s.globalDatabase = some g → g.reference.valid = true →
      ∀ t1 t2, t1 ≠ t2 →
      Copies.contains g.copies t1 = true → Copies.contains g.copies t2 = true →
      (Copies.value g.copies t1).connectionName ≠
        (Copies.value g.copies t2).connectionName) ∧
    (∀ s, Reachable s → ∀ g, s.globalDatabase = some g → g.reference.valid = true →
      ∀ t1 t2, t1 ≠ t2 → t1 ≠ g.thread → t2 ≠ g.thread →
      (database t1 s).1.connectionName ≠
        (database t2 (database t1 s).2).1.connectionName) := by
  refine ⟨?_, ?_, ?_⟩
  · intro s g t hg ht s1 hsteps
    obtain ⟨g1, a1, a2, a3, a4⟩ := database_spec hg ht
    obtain ⟨g2, b1, b2, b3, b4⟩ := hsteps.keeps g1 a1 a3
    have ht2 : t ≠ g2.thread := by rw [b2, a2]; exact ht
    have hd := database_of_contains b1 ht2 b3
    rw [hd]
    refine ⟨?_, ?_, rfl⟩
    · show Copies.value g2.copies t = _
      rw [b4, a4]
    · show (Copies.value g2.copies t).connectionName = _
      rw [b4, a4]
  · intro s hs g hg hvalid t1 t2 hne h1 h2
    exact (hs.fresh_names g hg).distinct hvalid hne h1 h2
  · intro s hs g hg hvalid t1 t2 hne ht1 ht2
    obtain ⟨g1, a1, a2, a3, a4⟩ := database_spec hg ht1
    have ht2b : t2 ≠ g1.thread := by rw [a2]; exact ht2
    obtain ⟨g2, b1, b2, b3, b4⟩ := database_spec a1 ht2b
    have hkeep := (StepsKeeping.database t2 (StepsKeeping.refl (t := t1) (database t1 s).2)).keeps
      g1 a1 a3
    obtain ⟨g3, c1, _, c3, c4⟩ := hkeep
    have hg32 : g3 = g2 := Option.some.inj (c1.symm.trans b1)
    subst hg32
    have hreach : Reachable (database t2 (database t1 s).2).2 :=
      Reachable.step (Reachable.step hs (ManagerStep.database t1 s)) (ManagerStep.database t2 _)
    have hvalid3 : g3.reference.valid = true := by
      rw [database_reference t2 a1 g3 b1, database_reference t1 hg g1 a1]
      exact hvalid
    have := (hreach.fresh_names g3 b1).distinct hvalid3 hne c3 b3
    rw [c4, a4, b4] at this
    exact this

theorem database_same_clone_distinct_names_witness :
    freshManager.globalDatabase = some ⟨0, ⟨[100, 98], [81, 83, 81, 76, 73, 84, 69], true⟩, [], 0⟩ ∧
    (⟨0, ⟨[100, 98], [81, 83, 81, 76, 73, 84, 69], true⟩, [], 0⟩ :
      QDjangoDatabase).reference.valid = true ∧
    (1 : QThread) ≠ 0 ∧ (2 : QThread) ≠ 0 ∧ (1 : QThread) ≠ 2 ∧
    StepsKeeping 1 (database 1 freshManager).2 (database 2 (database 1 freshManager).2).2 ∧
    Reachable freshManager ∧
    ((database 1 (database 2 (database 1 freshManager).2).2).1 = (database 1 freshManager).1 ∧
      (database 1 (database 2 (database 1 freshManager).2).2).1.connectionName =
        (database 1 freshManager).1.connectionName ∧
      (database 1 (database 2 (database 1 freshManager).2).2).2 =
        (database 2 (database 1 freshManager).2).2) ∧
    (database 1 freshManager).1.connectionName ≠
      (database 2 (database 1 freshManager).2).1.connectionName :=
  ⟨rfl, rfl, by decide, by decide, by decide,
    StepsKeeping.database 2 (StepsKeeping.refl _),
    Reachable.init 0 _ _ _,
    database_same_clone_distinct_names.1 freshManager _ 1 rfl (by decide) _
      (StepsKeeping.database 2 (StepsKeeping.refl _)),
    database_same_clone_distinct_names.2.2 freshManager (Reachable.init 0 _ _ _) _ rfl rfl 1 2
      (by decide) (by decide) (by decide)⟩

/-! ## Release of a clone: C11, C16 -/

theorem connectionPrefix_isPrefixOf_append (x : QString) :
    connectionPrefix.isPrefixOf (connectionPrefix ++ x) = true :=
  List.isPrefixOf_iff_prefix.mpr (List.prefix_append _ _)

theorem Copies.contains_remove_same (c : Copies) (t : QThread) :
    Copies.contains (Copies.remove c t) t = false := by
  induction c with
  | nil => rfl
  | cons e rest ih =>
    obtain ⟨w, db⟩ := e
    rw [Copies.remove_cons]
    by_cases hw : w = t
    · rw [if_pos hw, ih]
    · rw [if_neg hw, Copies.contains_cons, if_neg hw, ih]

theorem Copies.remove_of_not_contains (c : Copies) (t : QThread)
    (h : Copies.contains c t = false) : Copies.remove c t = c := by
  induction c with
  | nil => rfl
  | cons e rest ih =>
    obtain ⟨w, db⟩ := e
    rw [Copies.contains_cons] at h
    rw [Copies.remove_cons]
    by_cases hw : w = t
    · rw [if_pos hw] at h
      exact absurd h (by simp)
    · rw [if_neg hw] at h
      rw [if_neg hw, ih h]

theorem Copies.value_of_no_entry (c : Copies) (t : QThread)
    (h : Copies.contains c t = false) : Copies.value c t = QSqlDatabase.invalid := by
  induction c with
  | nil => rfl
  | cons e rest ih =>
    obtain ⟨w, db⟩ := e
    rw [Copies.contains_cons] at h
    rw [Copies.value_cons]
    by_cases hw : w = t
    · rw [if_pos hw] at h
      exact absurd h (by simp)
    · rw [if_neg hw] at h
      rw [if_neg hw, ih h]

theorem threadFinished_of_prefixed {s : Manager} {g : QDjangoDatabase} (t : QThread)
    (hg : s.globalDatabase = some g)
    (hp : connectionPrefix.isPrefixOf (Copies.value g.copies t).connectionName = true) :
    threadFinished (some t) s =
      { globalDatabase := some { g with copies := Copies.remove g.copies t },
        connections :=
          s.connections.filter (fun n => n ≠ (Copies.value g.copies t).connectionName),
        released := (Copies.value g.copies t).connectionName :: s.released } := by
  simp only [threadFinished, hg, hp, if_true]

theorem threadFinished_of_unprefixed {s : Manager} {g : QDjangoDatabase} (t : QThread)
    (hg : s.globalDatabase = some g)
    (hp : connectionPrefix.isPrefixOf (Copies.value g.copies t).connectionName = false) :
    threadFinished (some t) s =
      { s with globalDatabase := some { g with copies := Copies.remove g.copies t } } := by
  simp only [threadFinished, hg, hp, Bool.false_eq_true, if_false]

theorem threadFinished_of_no_entry (s : Manager) (t : QThread)
    (h : ∀ g, s.globalDatabase = some g → Copies.contains g.copies t = false) :
    threadFinished (some t) s = s := by
  cases hg : s.globalDatabase with
  | none => simp only [threadFinished, hg]
  | some g =>
    have hc := h g hg
    have hv := Copies.value_of_no_entry g.copies t hc
    have hp : connectionPrefix.isPrefixOf (Copies.value g.copies t).connectionName = false := by
      rw [hv]
      rfl
    rw [threadFinished_of_unprefixed t hg hp, Copies.remove_of_not_contains _ _ hc]
    cases s
    simp only at hg
    rw [hg]

theorem connectionPrefix_not_isPrefixOf_nil :
    connectionPrefix.isPrefixOf ([] : QString) = false := rfl

theorem CopiesFresh.prefixed {g : QDjangoDatabase} (h : CopiesFresh g)
    (hvalid : g.reference.valid = true) {t : QThread}
    (hc : Copies.contains g.copies t = true) :
    connectionPrefix.isPrefixOf (Copies.value g.copies t).connectionName = true := by
  rcases h.2 _ (Copies.mem_of_contains _ _ hc) with ⟨_, k, _, hk⟩ | ⟨hinv, _⟩
  · have hk2 : (Copies.value g.copies t).connectionName =
        connectionPrefix ++ QString.number k := hk
    rw [hk2]
    exact connectionPrefix_isPrefixOf_append _
  · rw [hvalid] at hinv
    exact absurd hinv (by simp)

theorem CopiesFresh.of_prefixed {g : QDjangoDatabase} (h : CopiesFresh g) {t : QThread}
    (hp : connectionPrefix.isPrefixOf (Copies.value g.copies t).connectionName = true) :
    Copies.contains g.copies t = true ∧ g.reference.valid = true := by
  have hc : Copies.contains g.copies t = true := by
    by_contra hn
    have hn2 : Copies.contains g.copies t = false := by simpa using hn
    rw [Copies.value_of_no_entry _ _ hn2] at hp
    exact absurd hp (by decide)
  refine ⟨hc, ?_⟩
  rcases h.2 _ (Copies.mem_of_contains _ _ hc) with ⟨hv, _⟩ | ⟨_, hinv⟩
  · exact hv
  · have hinv2 : Copies.value g.copies t = QSqlDatabase.invalid := hinv
    rw [hinv2] at hp
    exact absurd hp (by decide)

/-- C11, as stated, fails: with an invalid reference connection the clone thread `1` owns is
the default-constructed handle with the empty name; the slot `threadFinished()` run for
thread `1` removes the entry but the `startsWith` guard fails and `removeDatabase` is not
called. -/
theorem threadFinished_invalid_reference_counterexample :
    Reachable (database 1 invalidManager).2 ∧
    (∃ g, (database 1 invalidManager).2.globalDatabase = some g ∧
      Copies.contains g.copies 1 = true ∧ (Copies.value g.copies 1).connectionName = []) ∧
    (threadFinished (some 1) (database 1 invalidManager).2).released =
      (database 1 invalidManager).2.released ∧
    (threadFinished (some 1) (database 1 invalidManager).2).released = [] :=
  ⟨Reachable.step (Reachable.init 0 _ _ _) (ManagerStep.database 1 _),
    ⟨_, rfl, rfl, rfl⟩, rfl, rfl⟩

/-- C11, amended: in a state the manager reaches whose reference connection is valid and in
which thread `t` owns a clone named `n`, the slot `threadFinished()` run for `t` removes the
entry of `t`, calls `removeDatabase` with `n`, so that `n` is no connection name of the
library's table afterwards, and leaves the entries of all other threads, the counter, the
reference connection and the other connection names as they were. -/
theorem threadFinished_releases_clone (s : Manager) (hs : Reachable s) (g : QDjangoDatabase)
    (hg : s.globalDatabase = some g) (hvalid : g.reference.valid = true) (t : QThread)
    (hown : Copies.contains g.copies t = true) :
    ∃ g1, (threadFinished (some t) s).globalDatabase = some g1 ∧
      Copies.contains g1.copies t = false ∧
      (threadFinished (some t) s).released =
        (Copies.value g.copies t).connectionName :: s.released ∧
      (Copies.value g.copies t).connectionName ∉ (threadFinished (some t) s).connections ∧
      (∀ m, m ≠ (Copies.value g.copies t).connectionName →
        (m ∈ (threadFinished (some t) s).connections ↔ m ∈ s.connections)) ∧
      (∀ u, u ≠ t → Copies.contains g1.copies u = Copies.contains g.copies u ∧
        Copies.value g1.copies u = Copies.value g.copies u) ∧
      g1.connectionId = g.connectionId ∧ g1.thread = g.thread ∧
      g1.reference = g.reference := by
  have hp := (hs.fresh_names g hg).prefixed hvalid hown
  rw [threadFinished_of_prefixed t hg hp]
  refine ⟨_, rfl, Copies.contains_remove_same _ _, rfl, ?_, ?_, ?_, rfl, rfl, rfl⟩
  · simp [List.mem_filter]
  · intro m hm
    simp [List.mem_filter, hm]
  · intro u hu
    exact ⟨Copies.contains_remove_ne _ (fun h => hu h.symm),
      Copies.value_remove_ne _ (fun h => hu h.symm)⟩

theorem threadFinished_releases_clone_witness :
    Reachable (database 1 freshManager).2 ∧
    ∃ g, (database 1 freshManager).2.globalDatabase = some g ∧
      g.reference.valid = true ∧
      Copies.contains g.copies 1 = true ∧
      ∃ g1, (threadFinished (some 1) (database 1 freshManager).2).globalDatabase = some g1 ∧
        Copies.contains g1.copies 1 = false ∧
        (threadFinished (some 1) (database 1 freshManager).2).released =
          (Copies.value g.copies 1).connectionName :: (database 1 freshManager).2.released ∧
        (Copies.value g.copies 1).connectionName ∉
          (threadFinished (some 1) (database 1 freshManager).2).connections ∧
        (∀ m, m ≠ (Copies.value g.copies 1).connectionName →
          (m ∈ (threadFinished (some 1) (database 1 freshManager).2).connections ↔
            m ∈ (database 1 freshManager).2.connections)) ∧
        (∀ u, u ≠ 1 → Copies.contains g1.copies u = Copies.contains g.copies u ∧
          Copies.value g1.copies u = Copies.value g.copies u) ∧
        g1.connectionId = g.connectionId ∧ g1.thread = g.thread ∧
        g1.reference = g.reference :=
  ⟨Reachable.step (Reachable.init 0 _ _ _) (ManagerStep.database 1 _),
    _, rfl, rfl, rfl,
    threadFinished_releases_clone (database 1 freshManager).2
      (Reachable.step (Reachable.init 0 _ _ _) (ManagerStep.database 1 _)) _ rfl rfl 1 rfl⟩

theorem threadFinished_idempotent (sender : Option QThread) (s : Manager) :
    threadFinished sender (threadFinished sender s) = threadFinished sender s := by
  cases sender with
  | none => rfl
  | some t =>
    apply threadFinished_of_no_entry
    intro g1 hg1
    cases hg : s.globalDatabase with
    | none =>
      have h0 : threadFinished (some t) s = s := by simp only [threadFinished, hg]
      rw [h0, hg] at hg1
      exact absurd hg1 (by simp)
    | some g =>
      rw [threadFinished_globalDatabase t hg] at hg1
      rw [← Option.some.inj hg1]
      exact Copies.contains_remove_same _ _

theorem ManagerStep.keeps_released {s t : Manager} (h : ManagerStep s t)
    (hf : ∀ g, s.globalDatabase = some g → CopiesFresh g) (hr : ReleasedFresh s) :
    ReleasedFresh t := by
  cases h with
  | database thread =>
    cases hg : s.globalDatabase with
    | none =>
      have h0 : (QDjango.database thread s).2 = s := by simp [QDjango.database, hg]
      rw [h0]
      exact hr
    | some g =>
      by_cases ht : thread = g.thread
      · rw [ht, database_of_owner hg]
        exact hr
      · by_cases hc : Copies.contains g.copies thread = true
        · rw [database_of_contains hg ht hc]
          exact hr
        · rw [database_of_new hg ht hc]
          refine ⟨hr.1, ?_⟩
          intro g1 hg1 n hn
          have hg2 := Option.some.inj hg1
          subst hg2
          obtain ⟨⟨k, hk, hname⟩, hcop⟩ := hr.2 g hg n hn
          refine ⟨⟨k, Nat.lt_succ_of_lt hk, hname⟩, ?_⟩
          intro e he
          have he2 : e ∈ Copies.insert g.copies thread
              (QSqlDatabase.cloneDatabase g.reference
                (connectionPrefix ++ QString.number g.connectionId)) := he
          unfold Copies.insert at he2
          rcases List.mem_cons.mp he2 with h3 | h3
          · rw [h3, hname]
            by_cases hvalid : g.reference.valid = true
            · rw [cloneDatabase_of_valid hvalid]
              intro heq
              have h4 : QString.number g.connectionId = QString.number k :=
                List.append_cancel_left heq
              have h5 := QString.number_injective h4
              omega
            · have hinv : g.reference.valid = false := by simpa using hvalid
              rw [cloneDatabase_of_invalid hinv]
              intro heq
              have := congrArg List.length heq
              simp [QSqlDatabase.invalid, connectionPrefix] at this
          · rw [Copies.remove_eq_filter] at h3
            exact hcop e (List.mem_of_mem_filter h3)
  | threadFinished thread =>
    cases hg : s.globalDatabase with
    | none =>
      have h0 : QDjango.threadFinished (some thread) s = s := by
        simp only [QDjango.threadFinished, hg]
      rw [h0]
      exact hr
    | some g =>
      have hfresh := hf g hg
      have hsub : ∀ e ∈ Copies.remove g.copies thread, e ∈ g.copies ∧ e.1 ≠ thread := by
        intro e he
        rw [Copies.remove_eq_filter] at he
        exact ⟨List.mem_of_mem_filter he, by simpa using (List.mem_filter.mp he).2⟩
      by_cases hp : connectionPrefix.isPrefixOf
          (Copies.value g.copies thread).connectionName = true
      · obtain ⟨hc, hvalid⟩ := hfresh.of_prefixed hp
        have hmem := Copies.mem_of_contains _ _ hc
        rw [threadFinished_of_prefixed thread hg hp]
        refine ⟨?_, ?_⟩
        · show ((Copies.value g.copies thread).connectionName :: s.released).Nodup
          rw [List.nodup_cons]
          exact ⟨fun hin => (hr.2 g hg _ hin).2 _ hmem rfl, hr.1⟩
        · intro g1 hg1 n hn
          have hg2 := Option.some.inj hg1
          subst hg2
          have hn2 : n ∈ (Copies.value g.copies thread).connectionName :: s.released := hn
          rcases List.mem_cons.mp hn2 with h3 | h3
          · refine ⟨?_, ?_⟩
            · rcases hfresh.2 _ hmem with ⟨_, k, hk, hname⟩ | ⟨hinv, _⟩
              · exact ⟨k, hk, h3.trans hname⟩
              · rw [hvalid] at hinv
                exact absurd hinv (by simp)
            · intro e he
              have hsymm : Symmetric (fun a b : QThread × QSqlDatabase =>
                  a.1 ≠ b.1 ∧
                  (g.reference.valid = true → a.2.connectionName ≠ b.2.connectionName)) :=
                fun a b hab => ⟨fun h4 => hab.1 h4.symm, fun hv h4 => hab.2 hv h4.symm⟩
              have := List.Pairwise.forall hsymm hfresh.1 (hsub e he).1 hmem
                (fun heq => (hsub e he).2 (congrArg Prod.fst heq))
              rw [h3]
              exact this.2 hvalid
          · obtain ⟨hk, hcop⟩ := hr.2 g hg n h3
            exact ⟨hk, fun e he => hcop e (hsub e he).1⟩
      · have hp2 : connectionPrefix.isPrefixOf
            (Copies.value g.copies thread).connectionName = false :=
          Bool.eq_false_iff.mpr hp
        rw [threadFinished_of_unprefixed thread hg hp2]
        refine ⟨hr.1, ?_⟩
        intro g1 hg1 n hn
        have hg2 := Option.some.inj hg1
        subst hg2
        obtain ⟨hk, hcop⟩ := hr.2 g hg n hn
        exact ⟨hk, fun e he => hcop e (hsub e he).1⟩

theorem released_nodup_of_steps {s0 s : Manager}
    (h : Relation.ReflTransGen ManagerStep s0 s)
    (hf : ∀ g, s0.globalDatabase = some g → CopiesFresh g) (hr : ReleasedFresh s0) :
    (∀ g, s.globalDatabase = some g → CopiesFresh g) ∧ ReleasedFresh s := by
  induction h with
  | refl => exact ⟨hf, hr⟩
  | tail _ hstep ih => exact ⟨hstep.keeps_fresh ih.1, hstep.keeps_released ih.1 ih.2⟩

/-- C16: the slot `threadFinished()` run for a thread that has no entry in the map leaves
the whole state as it was (map, counter, connection table, nothing released); running it
twice for a thread is the same as running it once; and in every state reached from a freshly
constructed manager no connection name has been released more than once. -/
theorem threadFinished_twice_noop :
    (∀ (s : Manager) (t : QThread),
      (∀ g, s.globalDatabase = some g → Copies.contains g.copies t = false) →
      threadFinished (some t) s = s) ∧
    (∀ (s : Manager) (sender : Option QThread),
      threadFinished sender (threadFinished sender s) = threadFinished sender s) ∧
    (∀ (s : Manager) (g : QDjangoDatabase) (t : QThread), s.globalDatabase = some g →
      ∃ g1, (threadFinished (some t) s).globalDatabase = some g1 ∧
        Copies.contains g1.copies t = false) ∧
    (∀ (thread : QThread) (reference : QSqlDatabase) (connections : List QString)
      (s : Manager),
      Relation.ReflTransGen ManagerStep
        { globalDatabase := some ⟨thread, reference, [], 0⟩, connections := connections,
          released := [] } s →
      s.released.Nodup) := by
  refine ⟨threadFinished_of_no_entry, fun s sender => threadFinished_idempotent sender s,
    ?_, ?_⟩
  · intro s g t hg
    exact ⟨_, threadFinished_globalDatabase t hg, Copies.contains_remove_same _ _⟩
  · intro thread reference connections s hsteps
    refine (released_nodup_of_steps hsteps ?_ ?_).2.1
    · intro g hg
      have hg2 : (⟨thread, reference, [], 0⟩ : QDjangoDatabase) = g := Option.some.inj hg
      subst hg2
      exact ⟨List.Pairwise.nil, fun e he => by simp at he⟩
    · exact ⟨List.nodup_nil, fun g _ n hn => by simp at hn⟩

theorem threadFinished_twice_noop_witness :
    (∀ g, freshManager.globalDatabase = some g → Copies.contains g.copies 1 = false) ∧
    threadFinished (some 1) freshManager = freshManager ∧
    Relation.ReflTransGen ManagerStep freshManager
      (threadFinished (some 1) (threadFinished (some 1) (database 1 freshManager).2)) ∧
    (threadFinished (some 1)
      (threadFinished (some 1) (database 1 freshManager).2)).released.Nodup :=
  ⟨fun g hg => by rw [← Option.some.inj hg]; rfl,
    threadFinished_twice_noop.1 freshManager 1 (fun g hg => by rw [← Option.some.inj hg]; rfl),
    Relation.ReflTransGen.tail
      (Relation.ReflTransGen.tail
        (Relation.ReflTransGen.single (ManagerStep.database 1 freshManager))
        (ManagerStep.threadFinished 1 _))
      (ManagerStep.threadFinished 1 _),
    threadFinished_twice_noop.2.2.2 0 _ _ _
      (Relation.ReflTransGen.tail
        (Relation.ReflTransGen.tail
          (Relation.ReflTransGen.single (ManagerStep.database 1 freshManager))
          (ManagerStep.threadFinished 1 _))
        (ManagerStep.threadFinished 1 _))⟩

/-! ## Configuration: C12, C13, C14 -/

theorem initDatabase_globalDatabaseType (E : Enumerators) (db : QSqlDatabase)
    (pragmaFailure : Option QString) (s : Globals) :
    (initDatabase E db pragmaFailure s).globalDatabaseType = s.globalDatabaseType ∧
    (initDatabase E db pragmaFailure s).manager = s.manager := by
  unfold initDatabase
  by_cases h : QDjangoDatabase.databaseType s db = E.SQLite
  · simp [h]
  · simp [h]

theorem setDatabaseConfigure_spec (E : Enumerators) (thread : QThread)
    (database : QSqlDatabase) (skipInit : Bool) (dbType : Int) (answers : ProbeAnswers)
    (pragmaFailure : Option QString) (s : Globals) :
    (setDatabaseConfigure E thread database skipInit dbType answers pragmaFailure
        s).globalDatabaseType =
      (if dbType > 0 then dbType else getDatabaseType E database answers) ∧
    (setDatabaseConfigure E thread database skipInit dbType answers pragmaFailure
        s).manager.globalDatabase =
      some { (match s.manager.globalDatabase with
              | some g => g
              | none => (⟨thread, QSqlDatabase.invalid, [], 0⟩ : QDjangoDatabase)) with
             reference := database } := by
  unfold setDatabaseConfigure
  constructor
  · dsimp only
    split_ifs <;> simp [(initDatabase_globalDatabaseType _ _ _ _).1]
  · dsimp only
    split_ifs <;> simp [(initDatabase_globalDatabaseType _ _ _ _).2]

theorem setDatabase_configures (E : Enumerators) (thread : QThread) (database : QSqlDatabase)
    (skipInit : Bool) (dbType : Int) (answers : ProbeAnswers) (pragmaFailure : Option QString)
    (s : Globals)
    (hfull : ∀ g, s.manager.globalDatabase = some g →
      ¬ (skipInit = true ∧ g.reference.driverName = database.driverName)) :
    setDatabase E thread database skipInit dbType answers pragmaFailure s =
      setDatabaseConfigure E thread database skipInit dbType answers pragmaFailure s := by
  unfold setDatabase
  cases hg : s.manager.globalDatabase with
  | none => rfl
  | some g => simp only [hfull g hg, if_false]

/-- C14: after a `setDatabase(db, skipInit, dbType)` call that does not take the shortcut,
`QDjangoDatabase::databaseType` returns `dbType` when `dbType > 0`, whatever the driver;
otherwise the family of the driver name: `QMYSQL` and `QMYSQL3` give `MySqlServer`,
`QSQLITE` and `QSQLITE2` give `SQLite`, `QPSQL` gives `PostgreSQL`, and every other name that
does not start with `QODBC` gives `UnknownDB`. -/
theorem setDatabase_family (E : Enumerators) (thread : QThread) (db other : QSqlDatabase)
    (skipInit : Bool) (dbType : Int) (answers : ProbeAnswers) (pragmaFailure : Option QString)
    (s : Globals)
    (hfull : ∀ g, s.manager.globalDatabase = some g →
      ¬ (skipInit = true ∧ g.reference.driverName = db.driverName)) :
    (dbType > 0 →
      QDjangoDatabase.databaseType
        (setDatabase E thread db skipInit dbType answers pragmaFailure s) other = dbType) ∧
    (¬ dbType > 0 →
      QDjangoDatabase.databaseType
          (setDatabase E thread db skipInit dbType answers pragmaFailure s) other =
        getDatabaseType E db answers ∧
      (db.driverName = latin1 ("QMYSQL") ∨ db.driverName = latin1 ("QMYSQL3") →
        getDatabaseType E db answers = E.MySqlServer) ∧
      (db.driverName = latin1 ("QSQLITE") ∨ db.driverName = latin1 ("QSQLITE2") →
        getDatabaseType E db answers = E.SQLite) ∧
      (db.driverName = latin1 ("QPSQL") → getDatabaseType E db answers = E.PostgreSQL) ∧
      (db.driverName ≠ latin1 ("QMYSQL") → db.driverName ≠ latin1 ("QMYSQL3") →
        db.driverName ≠ latin1 ("QSQLITE") → db.driverName ≠ latin1 ("QSQLITE2") →
        db.driverName ≠ latin1 ("QPSQL") →
        (latin1 ("QODBC")).isPrefixOf db.driverName = false →
        getDatabaseType E db answers = E.UnknownDB)) := by
  have hset := setDatabase_configures E thread db skipInit dbType answers pragmaFailure s hfull
  have htype := (setDatabaseConfigure_spec E thread db skipInit dbType answers
    pragmaFailure s).1
  refine ⟨?_, ?_⟩
  · intro hpos
    show (setDatabase E thread db skipInit dbType answers pragmaFailure s).globalDatabaseType = _
    rw [hset, htype, if_pos hpos]
  · intro hneg
    refine ⟨?_, ?_, ?_, ?_, ?_⟩
    · show (setDatabase E thread db skipInit dbType answers pragmaFailure
        s).globalDatabaseType = _
      rw [hset, htype, if_neg hneg]
    · intro h
      unfold getDatabaseType
      simp only [h, if_true]
    · intro h
      have h1 : ¬ (db.driverName = latin1 ("QMYSQL") ∨ db.driverName = latin1 ("QMYSQL3")) := by
        rcases h with h | h <;> rw [h] <;> decide
      unfold getDatabaseType
      simp only [h1, h, if_true, if_false]
    · intro h
      have h1 : ¬ (db.driverName = latin1 ("QMYSQL") ∨ db.driverName = latin1 ("QMYSQL3")) := by
        rw [h]; decide
      have h2 : ¬ (db.driverName = latin1 ("QSQLITE") ∨
          db.driverName = latin1 ("QSQLITE2")) := by
        rw [h]; decide
      unfold getDatabaseType
      dsimp only
      rw [if_neg h1, if_neg h2, if_pos h]
    · intro n1 n2 n3 n4 n5 n6
      unfold getDatabaseType
      simp only [n1, n2, n3, n4, n5, n6, or_self, if_false, Bool.false_eq_true]

theorem setDatabase_family_witness :
    (∀ g, startGlobals.manager.globalDatabase = some g →
      ¬ (false = true ∧ g.reference.driverName = (⟨[100, 98], latin1 ("QPSQL"), true⟩ :
        QSqlDatabase).driverName)) ∧
    (¬ (0 : Int) > 0) ∧
    QDjangoDatabase.databaseType
        (setDatabase exampleEnumerators 0 ⟨[100, 98], latin1 ("QPSQL"), true⟩ false 0 noAnswers
          none startGlobals) QSqlDatabase.invalid =
      getDatabaseType exampleEnumerators ⟨[100, 98], latin1 ("QPSQL"), true⟩ noAnswers ∧
    getDatabaseType exampleEnumerators ⟨[100, 98], latin1 ("QPSQL"), true⟩ noAnswers =
      exampleEnumerators.PostgreSQL :=
  ⟨fun g hg => by simp [startGlobals] at hg, by decide,
    ((setDatabase_family exampleEnumerators 0 ⟨[100, 98], latin1 ("QPSQL"), true⟩
      QSqlDatabase.invalid false 0 noAnswers none startGlobals
      (fun g hg => by simp [startGlobals] at hg)).2 (by decide)).1,
    ((setDatabase_family exampleEnumerators 0 ⟨[100, 98], latin1 ("QPSQL"), true⟩
      QSqlDatabase.invalid false 0 noAnswers none startGlobals
      (fun g hg => by simp [startGlobals] at hg)).2 (by decide)).2.2.2.1 rfl⟩

/-- C12, as stated, fails: with a `QSQLITE` reference connection configured (family
`SQLite`), `setDatabase(db, true, PostgreSQL)` for a `QSQLITE2` handle, a driver of the same
family, does not take the shortcut and changes the family tag. -/
theorem setDatabase_same_family_counterexample :
    getDatabaseType exampleEnumerators ⟨[100, 98], latin1 ("QSQLITE"), true⟩ noAnswers =
      exampleEnumerators.SQLite ∧
    getDatabaseType exampleEnumerators ⟨[100, 50], latin1 ("QSQLITE2"), true⟩ noAnswers =
      exampleEnumerators.SQLite ∧
    sqliteGlobals.manager.globalDatabase =
      some ⟨0, ⟨[100, 98], latin1 ("QSQLITE"), true⟩, [], 0⟩ ∧
    sqliteGlobals.globalDatabaseType = exampleEnumerators.SQLite ∧
    (setDatabase exampleEnumerators 0 ⟨[100, 50], latin1 ("QSQLITE2"), true⟩ true
      exampleEnumerators.PostgreSQL noAnswers none sqliteGlobals).globalDatabaseType =
        exampleEnumerators.PostgreSQL ∧
    (setDatabase exampleEnumerators 0 ⟨[100, 50], latin1 ("QSQLITE2"), true⟩ true
      exampleEnumerators.PostgreSQL noAnswers none sqliteGlobals).globalDatabaseType ≠
        sqliteGlobals.globalDatabaseType := by
  decide

/-- C12, amended: when a reference connection is configured, `setDatabase(db, true, dbType)`
for every `dbType` and every `db` whose driver name equals that of the reference connection
only stores `db` as reference connection: no initialization runs, nothing is logged, and the
family tag, the map of clones and the counter are unchanged. -/
theorem setDatabase_skipInit_swaps (E : Enumerators) (thread : QThread) (db : QSqlDatabase)
    (dbType : Int) (answers : ProbeAnswers) (pragmaFailure : Option QString) (s : Globals)
    (g : QDjangoDatabase) (hg : s.manager.globalDatabase = some g)
    (hdriver : g.reference.driverName = db.driverName) :
    setDatabase E thread db true dbType answers pragmaFailure s =
      { s with manager :=
          { s.manager with globalDatabase := some { g with reference := db } } } ∧
    (setDatabase E thread db true dbType answers pragmaFailure s).globalDatabaseType =
      s.globalDatabaseType ∧
    (setDatabase E thread db true dbType answers pragmaFailure s).initialized =
      s.initialized ∧
    (setDatabase E thread db true dbType answers pragmaFailure s).log = s.log ∧
    ∃ g1, (setDatabase E thread db true dbType answers pragmaFailure s).manager.globalDatabase =
        some g1 ∧
      g1.reference = db ∧ g1.copies = g.copies ∧ g1.connectionId = g.connectionId ∧
      g1.thread = g.thread := by
  have h : setDatabase E thread db true dbType answers pragmaFailure s =
      { s with manager :=
          { s.manager with globalDatabase := some { g with reference := db } } } := by
    unfold setDatabase
    simp only [hg, hdriver, and_self, if_true]
  rw [h]
  exact ⟨rfl, rfl, rfl, rfl, _, rfl, rfl, rfl, rfl, rfl⟩

theorem setDatabase_skipInit_swaps_witness :
    sqliteGlobals.manager.globalDatabase =
      some ⟨0, ⟨[100, 98], latin1 ("QSQLITE"), true⟩, [], 0⟩ ∧
    (⟨0, ⟨[100, 98], latin1 ("QSQLITE"), true⟩, [], 0⟩ : QDjangoDatabase).reference.driverName =
      (⟨[100, 50], latin1 ("QSQLITE"), true⟩ : QSqlDatabase).driverName ∧
    (setDatabase exampleEnumerators 0 ⟨[100, 50], latin1 ("QSQLITE"), true⟩ true 3 noAnswers
      none sqliteGlobals).globalDatabaseType = sqliteGlobals.globalDatabaseType :=
  ⟨by decide, by decide,
    (setDatabase_skipInit_swaps exampleEnumerators 0 ⟨[100, 50], latin1 ("QSQLITE"), true⟩ 3
      noAnswers none sqliteGlobals ⟨0, ⟨[100, 98], latin1 ("QSQLITE"), true⟩, [], 0⟩
      (by decide) (by decide)).2.1⟩

theorem setDatabase_owner (E : Enumerators) (thread : QThread) (c : SetDatabaseCall)
    (s : Globals)
    (hown : ∀ g, s.manager.globalDatabase = some g → g.thread = thread) :
    ∃ g1, (setDatabase E thread c.database c.skipInit c.dbType c.answers c.pragmaFailure
        s).manager.globalDatabase = some g1 ∧
      g1.thread = thread ∧ g1.reference = c.database := by
  unfold setDatabase
  cases hg : s.manager.globalDatabase with
  | none =>
    have h := (setDatabaseConfigure_spec E thread c.database c.skipInit c.dbType c.answers
      c.pragmaFailure s).2
    rw [hg] at h
    exact ⟨_, h, rfl, rfl⟩
  | some g =>
    by_cases hshort : c.skipInit = true ∧ g.reference.driverName = c.database.driverName
    · simp only [hshort, and_self, if_true]
      exact ⟨_, rfl, hown g hg, rfl⟩
    · simp only [hshort, if_false]
      have h := (setDatabaseConfigure_spec E thread c.database c.skipInit c.dbType c.answers
        c.pragmaFailure s).2
      rw [hg] at h
      exact ⟨_, h, hown g hg, rfl⟩

theorem setDatabaseAll_owner (E : Enumerators) (thread : QThread) :
    ∀ (calls : List SetDatabaseCall) (s : Globals),
      (∀ g, s.manager.globalDatabase = some g → g.thread = thread) →
      ∀ c, calls.getLast? = some c →
      ∃ g1, (setDatabaseAll E thread calls s).manager.globalDatabase = some g1 ∧
        g1.thread = thread ∧ g1.reference = c.database := by
  intro calls
  induction calls with
  | nil => intro s _ c hc; simp at hc
  | cons d rest ih =>
    intro s hown c hc
    obtain ⟨g1, h1, h2, h3⟩ := setDatabase_owner E thread d s hown
    cases rest with
    | nil =>
      have hcd : d = c := by simpa using hc
      subst hcd
      exact ⟨g1, h1, h2, h3⟩
    | cons e rest2 =>
      have hc2 : (e :: rest2).getLast? = some c := by
        rw [List.getLast?_cons_cons] at hc
        exact hc
      exact ih _ (fun g hg => by rw [← Option.some.inj (h1.symm.trans hg)]; exact h2) c hc2

/-- C13: after every non-empty sequence of `setDatabase` calls made from one thread, a
`database()` call from that thread returns the reference connection itself, the handle of
the last call, and leaves the map of clones, the counter and the rest of the state as they
were; and when nothing has been configured `database()` returns the default-constructed,
invalid handle. -/
theorem database_owner_reference (E : Enumerators) (thread : QThread)
    (calls : List SetDatabaseCall) (s : Globals) (c : SetDatabaseCall)
    (hstart : ∀ g, s.manager.globalDatabase = some g → g.thread = thread)
    (hlast : calls.getLast? = some c) :
    database thread (setDatabaseAll E thread calls s).manager =
        (c.database, (setDatabaseAll E thread calls s).manager) ∧
    (∃ g1, (setDatabaseAll E thread calls s).manager.globalDatabase = some g1 ∧
      g1.reference = c.database) ∧
    (∀ (m : Manager) (t : QThread), m.globalDatabase = none →
      database t m = (QSqlDatabase.invalid, m) ∧
      (database t m).1.valid = false) := by
  obtain ⟨g1, h1, h2, h3⟩ := setDatabaseAll_owner E thread calls s hstart c hlast
  refine ⟨?_, ⟨g1, h1, h3⟩, ?_⟩
  · have := database_of_owner h1
    rw [h2, h3] at this
    exact this
  · intro m t hm
    have h : database t m = (QSqlDatabase.invalid, m) := by simp [database, hm]
    rw [h]
    exact ⟨rfl, rfl⟩

theorem database_owner_reference_witness :
    (∀ g, startGlobals.manager.globalDatabase = some g → g.thread = 0) ∧
    ([⟨⟨[100, 98], latin1 ("QSQLITE"), true⟩, false, 0, noAnswers, none⟩,
      ⟨⟨[100, 50], latin1 ("QPSQL"), true⟩, true, 0, noAnswers, none⟩] :
        List SetDatabaseCall).getLast? =
      some ⟨⟨[100, 50], latin1 ("QPSQL"), true⟩, true, 0, noAnswers, none⟩ ∧
    database 0 (setDatabaseAll exampleEnumerators 0
        [⟨⟨[100, 98], latin1 ("QSQLITE"), true⟩, false, 0, noAnswers, none⟩,
          ⟨⟨[100, 50], latin1 ("QPSQL"), true⟩, true, 0, noAnswers, none⟩]
        startGlobals).manager =
      (⟨[100, 50], latin1 ("QPSQL"), true⟩,
        (setDatabaseAll exampleEnumerators 0
          [⟨⟨[100, 98], latin1 ("QSQLITE"), true⟩, false, 0, noAnswers, none⟩,
            ⟨⟨[100, 50], latin1 ("QPSQL"), true⟩, true, 0, noAnswers, none⟩]
          startGlobals).manager) :=
  ⟨fun g hg => by simp [startGlobals] at hg, rfl,
    (database_owner_reference exampleEnumerators 0
      [⟨⟨[100, 98], latin1 ("QSQLITE"), true⟩, false, 0, noAnswers, none⟩,
        ⟨⟨[100, 50], latin1 ("QPSQL"), true⟩, true, 0, noAnswers, none⟩]
      startGlobals ⟨⟨[100, 50], latin1 ("QPSQL"), true⟩, true, 0, noAnswers, none⟩
      (fun g hg => by simp [startGlobals] at hg) rfl).1⟩

/-! ## Statement execution: C15 -/

/-- C15: with the diagnostics flag off `exec()` and `exec(text)` leave the log as it was,
also when the execution fails; with the flag on and a failing execution the log gains the
statement text (then the bound values) and, last, the driver's error description; with the
flag on or off the returned boolean is the success of the underlying execution. -/
theorem exec_logging (q : QDjangoQuery) (text : QString) (failure : Option QString)
    (log : List LogLine) :
    (QDjangoQuery.exec false q failure log).2 = log ∧
    (QDjangoQuery.execText false text failure log).2 = log ∧
    (∀ error,
      (QDjangoQuery.exec true q (some error) log).2 =
        log ++ [LogLine.debug [latin1 ("SQL query"), q.lastQuery]] ++
          q.boundValues.map (fun b => LogLine.debug [latin1 ("SQL   "), b.1, latin1 ("="), b.2])
          ++ [LogLine.warning [latin1 ("SQL error"), error]] ∧
      (QDjangoQuery.execText true text (some error) log).2 =
        log ++ [LogLine.debug [latin1 ("SQL query"), text]] ++
          [LogLine.warning [latin1 ("SQL error"), error]]) ∧
    (∀ flag, (QDjangoQuery.exec flag q failure log).1 = failure.isNone ∧
      (QDjangoQuery.execText flag text failure log).1 = failure.isNone) ∧
    (QDjangoQuery.exec true q failure log).1 = (QDjangoQuery.exec false q failure log).1 ∧
    (QDjangoQuery.execText true text failure log).1 =
      (QDjangoQuery.execText false text failure log).1 := by
  refine ⟨?_, ?_, ?_, ?_, ?_, ?_⟩
  · cases failure <;> rfl
  · cases failure <;> rfl
  · intro error
    exact ⟨rfl, rfl⟩
  · intro flag
    cases failure <;> exact ⟨rfl, rfl⟩
  · cases failure <;> rfl
  · cases failure <;> rfl

/-! ## Termination of the traversal: C17 -/

theorem visitEach_mono (visit visit2 : QByteArray → SortState → Option SortState)
    (h : ∀ n s t, visit n s = some t → visit2 n s = some t) :
    ∀ (names : List QByteArray) (s t : SortState),
      visitEach visit names s = some t → visitEach visit2 names s = some t := by
  intro names
  induction names with
  | nil => intro s t hs; exact hs
  | cons f rest ih =>
    intro s t hs
    by_cases hf : f ∈ s.visited
    · rw [visitEach_cons_visited _ _ _ _ hf] at hs ⊢
      exact ih s t hs
    · rw [visitEach_cons_unvisited _ _ _ _ hf] at hs ⊢
      cases hv : visit f s with
      | none => rw [hv] at hs; simp at hs
      | some u =>
        rw [hv] at hs
        rw [h f s u hv]
        exact ih u t hs

theorem qdjango_topsort_mono : ∀ (fuel : Nat) (n : QByteArray) (s t : SortState),
    qdjango_topsort fuel n s = some t →
    ∀ more, fuel ≤ more → qdjango_topsort more n s = some t := by
  intro fuel
  induction fuel with
  | zero => intro n s t h; simp [qdjango_topsort] at h
  | succ fuel ih =>
    intro n s t h more hle
    obtain ⟨m, rfl⟩ : ∃ m, more = m + 1 := ⟨more - 1, by omega⟩
    rw [qdjango_topsort_succ] at h ⊢
    cases hv : visitEach (qdjango_topsort fuel) (QMap.index s.models n).1.foreignFields
        { s with models := (QMap.index s.models n).2, visited := n :: s.visited } with
    | none => rw [hv] at h; simp at h
    | some u =>
      rw [hv] at h
      rw [visitEach_mono _ (qdjango_topsort m)
        (fun n2 s2 t2 h2 => ih n2 s2 t2 h2 m (by omega)) _ _ _ hv]
      exact h

theorem visitEach_visited_nodup (visit : QByteArray → SortState → Option SortState)
    (h : ∀ n s t, visit n s = some t → n ∉ s.visited → s.visited.Nodup → t.visited.Nodup) :
    ∀ (names : List QByteArray) (s t : SortState),
      visitEach visit names s = some t → s.visited.Nodup → t.visited.Nodup := by
  intro names
  induction names with
  | nil =>
    intro s t hs hn
    have : s = t := Option.some.inj hs
    exact this ▸ hn
  | cons f rest ih =>
    intro s t hs hn
    by_cases hf : f ∈ s.visited
    · rw [visitEach_cons_visited _ _ _ _ hf] at hs
      exact ih s t hs hn
    · rw [visitEach_cons_unvisited _ _ _ _ hf] at hs
      cases hv : visit f s with
      | none => rw [hv] at hs; simp at hs
      | some u =>
        rw [hv] at hs
        exact ih u t hs (h f s u hv hf hn)

theorem qdjango_topsort_visited_nodup : ∀ (fuel : Nat) (n : QByteArray) (s t : SortState),
    qdjango_topsort fuel n s = some t → n ∉ s.visited → s.visited.Nodup →
    t.visited.Nodup := by
  intro fuel
  induction fuel with
  | zero => intro n s t h; simp [qdjango_topsort] at h
  | succ fuel ih =>
    intro n s t h hn hnd
    rw [qdjango_topsort_succ] at h
    cases hv : visitEach (qdjango_topsort fuel) (QMap.index s.models n).1.foreignFields
        { s with models := (QMap.index s.models n).2, visited := n :: s.visited } with
    | none => rw [hv] at h; simp at h
    | some u =>
      rw [hv] at h
      have hu := visitEach_visited_nodup _ ih _ _ _ hv (List.nodup_cons.mpr ⟨hn, hnd⟩)
      have ht : t = { u with stack := u.stack ++ [(QMap.index s.models n).1],
                             order := u.order ++ [n] } := (Option.some.inj h).symm
      rw [ht]
      exact hu

/-- C17: on every registry, whatever its foreign relationships (cycles and self-references
included), the traversal returns: a call of `qdjango_topsort` on an unvisited name returns
within a recursion depth equal to the number of names not yet visited, the result of
`qdjango_sorted_metamodels` is the same for every larger bound, and no name is marked
visited or pushed more than once. -/
theorem traversal_terminates (reg : QMap) :
    ∃ r, qdjango_sorted_metamodels reg = some r ∧
      r.order.Nodup ∧ r.visited.Nodup ∧ r.stack.length = r.order.length ∧
      (∀ x, x ∈ r.visited ↔ x ∈ r.order) ∧
      (∀ fuel, (allNames reg).length ≤ fuel →
        visitEach (qdjango_topsort fuel) (QMap.keys reg)
          { models := reg, visited := [], stack := [], order := [] } = some r) ∧
      (∀ (s : SortState) (n : QByteArray), TraversalInv reg s → n ∈ allNames reg →
        n ∉ s.visited →
        ∃ t, qdjango_topsort (pending (allNames reg) s.visited) n s = some t ∧
          n ∈ t.visited ∧ n ∈ t.order) := by
  obtain ⟨r, hr, hinv, hvis, _, _, _⟩ := qdjango_sorted_metamodels_spec reg
  refine ⟨r, hr, hinv.order_nodup, ?_, ?_, hvis, ?_, ?_⟩
  · exact visitEach_visited_nodup _
      (fun n s t h => qdjango_topsort_visited_nodup _ n s t h) _ _ _ hr List.nodup_nil
  · rw [hinv.stack_eq, List.length_map]
  · intro fuel hle
    exact visitEach_mono _ _
      (fun n s t h => qdjango_topsort_mono _ n s t h fuel hle) _ _ _ hr
  · intro s n hs hn hun
    obtain ⟨t, ht, _, hgrow, hnt⟩ := qdjango_topsort_spec reg _ n s hs hun hn (le_refl _)
    refine ⟨t, ht, hnt, ?_⟩
    obtain ⟨new, g1, g2, _, _, _⟩ := hgrow
    have := (g2 n).mp hnt
    rcases this with h | h
    · rw [g1]
      exact List.mem_append_right _ h
    · exact absurd h hun

theorem traversal_terminates_witness :
    ∃ r, qdjango_sorted_metamodels selfRegistry = some r ∧
      r.order.Nodup ∧ r.visited.Nodup ∧ r.stack.length = r.order.length ∧
      (∀ x, x ∈ r.visited ↔ x ∈ r.order) ∧
      (∀ fuel, (allNames selfRegistry).length ≤ fuel →
        visitEach (qdjango_topsort fuel) (QMap.keys selfRegistry)
          { models := selfRegistry, visited := [], stack := [], order := [] } = some r) ∧
      (∀ (s : SortState) (n : QByteArray), TraversalInv selfRegistry s →
        n ∈ allNames selfRegistry → n ∉ s.visited →
        ∃ t, qdjango_topsort (pending (allNames selfRegistry) s.visited) n s = some t ∧
          n ∈ t.visited ∧ n ∈ t.order) :=
  traversal_terminates selfRegistry

end QDjango
